import Mathlib

/-!
Shallow embedding of `create_spotify_playlist.py` (lineup2spotify) and proofs
about its claims.  Strings are modelled as `List Char`; external services
(the Spotify client) are modelled by their observable data: the user's
playlist collection as a list, search results and top-track responses as
oracle functions, and every mutating API call as a recorded trace element.
-/

set_option maxHeartbeats 1000000

namespace Lineup2Spotify

/-- Models Python `str.lower` characterwise (the ASCII case mapping; band
names and playlist names in this repository are treated over that fragment). -/
def pyLower (c : Char) : Char :=
  if 65 ≤ c.toNat ∧ c.toNat ≤ 90 then Char.ofNat (c.toNat + 32) else c

/-- Models Python whitespace (the `\s` class of `re` and `str.strip`):
ASCII whitespace plus the Unicode whitespace code points. -/
def isPySpace (c : Char) : Bool :=
  ([' ', '\t', '\n', '\r', '\x0b', '\x0c',
    '\x1c', '\x1d', '\x1e', '\x1f', '\x85', '\xa0',
    ' ', ' ', ' ', ' ', ' ', ' ', ' ',
    ' ', ' ', ' ', ' ', ' ', ' ', ' ',
    ' ', ' ', '　'] : List Char).contains c

/-- Models Python `str.lstrip()` (drop leading whitespace). -/
def lstripWs (l : List Char) : List Char := l.dropWhile isPySpace

/-- Models Python `str.rstrip()` (drop trailing whitespace). -/
def rstripWs (l : List Char) : List Char := (l.reverse.dropWhile isPySpace).reverse

/-- Models Python `str.strip()` (drop whitespace at both ends). -/
def stripWs (l : List Char) : List Char := rstripWs (lstripWs l)

/-- Models the chained single-character replacements of
`normalize_playlist_name` (source lines 49-50): the en dash, em dash and
minus sign become an ASCII hyphen, the right single quote becomes an ASCII
apostrophe. -/
def replaceSpecials (c : Char) : Char :=
  if c = '–' ∨ c = '—' ∨ c = '−' then '-'
  else if c = '’' then Char.ofNat 39
  else c

/-- State-machine form of `re.sub(r"\s+", " ", s)` (source line 51): the
boolean records whether we are inside a whitespace run whose single
replacement space was already emitted. -/
def cwAux : Bool → List Char → List Char
  | _, [] => []
  | inRun, c :: cs =>
    if isPySpace c then
      if inRun then cwAux true cs else ' ' :: cwAux true cs
    else c :: cwAux false cs

/-- Models `re.sub(r"\s+", " ", s)`: every maximal whitespace run becomes a
single space. -/
def collapseWs (l : List Char) : List Char := cwAux false l

/-- Fuel-indexed scan for `re.sub(r"\s*-\s*", " - ", s)` (source line 52).
At each position the regex engine greedily takes the whitespace run; if a
hyphen follows it the whole `\s*-\s*` region is replaced by `" - "` and
scanning resumes after it, otherwise one character is emitted unchanged.
The fuel is only a termination device; `dashSub` supplies enough of it. -/
def dashSubF : Nat → List Char → List Char
  | 0, l => l
  | _ + 1, [] => []
  | fuel + 1, c :: cs =>
    let r := (c :: cs).dropWhile isPySpace
    if r.head? = some '-' then
      ' ' :: '-' :: ' ' :: dashSubF fuel (r.tail.dropWhile isPySpace)
    else c :: dashSubF fuel cs

/-- Models `re.sub(r"\s*-\s*", " - ", s)`. -/
def dashSub (l : List Char) : List Char := dashSubF l.length l

/-- Models `normalize_playlist_name` (source lines 47-53): lowercase,
replace dash variants and the right single quote, collapse whitespace runs,
normalize spacing around hyphens, strip. -/
def normalize_playlist_name (name : List Char) : List Char :=
  stripWs (dashSub (collapseWs ((name.map pyLower).map replaceSpecials)))

end Lineup2Spotify

namespace Lineup2Spotify

/-! ### Character-level facts used by the idempotence proof -/

theorem pyLower_toNat_of_upper (c : Char) (h : 65 ≤ c.toNat ∧ c.toNat ≤ 90) :
    (pyLower c).toNat = c.toNat + 32 := by
  have hv : (c.toNat + 32).isValidChar := Or.inl (by omega)
  simp only [pyLower, if_pos h, Char.ofNat, dif_pos hv]
  rfl

theorem pyLower_eq_self (c : Char) (h : ¬(65 ≤ c.toNat ∧ c.toNat ≤ 90)) :
    pyLower c = c := by
  simp only [pyLower, if_neg h]

theorem pyLower_idem (c : Char) : pyLower (pyLower c) = pyLower c := by
  by_cases h : 65 ≤ c.toNat ∧ c.toNat ≤ 90
  · have h2 := pyLower_toNat_of_upper c h
    exact pyLower_eq_self _ (by omega)
  · rw [pyLower_eq_self c h, pyLower_eq_self c h]

theorem replaceSpecials_idem (c : Char) :
    replaceSpecials (replaceSpecials c) = replaceSpecials c := by
  unfold replaceSpecials
  split
  · decide
  · split
    · decide
    · rfl

/-- A character is `good` when both charwise rewrites of
`normalize_playlist_name` fix it. -/
def goodChar (c : Char) : Prop := pyLower c = c ∧ replaceSpecials c = c

theorem goodChar_space : goodChar ' ' := by constructor <;> decide

theorem goodChar_dash : goodChar '-' := by constructor <;> decide

theorem goodChar_image (c : Char) : goodChar (replaceSpecials (pyLower c)) := by
  by_cases hs : pyLower c = '–' ∨ pyLower c = '—' ∨ pyLower c = '−' ∨ pyLower c = '’'
  · have : replaceSpecials (pyLower c) = '-' ∨ replaceSpecials (pyLower c) = Char.ofNat 39 := by
      unfold replaceSpecials
      rcases hs with h | h | h | h <;> rw [h] <;> simp
    rcases this with h | h <;> rw [h] <;> constructor <;> decide
  · push_neg at hs
    have hr : replaceSpecials (pyLower c) = pyLower c := by
      unfold replaceSpecials
      rw [if_neg, if_neg]
      · exact hs.2.2.2
      · push_neg
        exact ⟨hs.1, hs.2.1, hs.2.2.1⟩
    rw [hr]
    exact ⟨pyLower_idem c, hr⟩

/-! ### Unfolding equations for `collapseWs` -/

theorem cwAux_true_eq (cs : List Char) :
    cwAux true cs = cwAux false (cs.dropWhile isPySpace) := by
  induction cs with
  | nil => rfl
  | cons c cs ih =>
    by_cases h : isPySpace c
    · simp [cwAux, h, List.dropWhile, ih]
    · simp [cwAux, h, List.dropWhile]

theorem collapseWs_nil : collapseWs [] = [] := rfl

theorem collapseWs_cons_ws (c : Char) (cs : List Char) (h : isPySpace c) :
    collapseWs (c :: cs) = ' ' :: collapseWs (cs.dropWhile isPySpace) := by
  simp [collapseWs, cwAux, h, cwAux_true_eq]

theorem collapseWs_cons_neg (c : Char) (cs : List Char) (h : ¬ isPySpace c) :
    collapseWs (c :: cs) = c :: collapseWs cs := by
  simp [collapseWs, cwAux, h]

theorem dropWhile_isPySpace_idem (l : List Char) :
    (l.dropWhile isPySpace).dropWhile isPySpace = l.dropWhile isPySpace := by
  induction l with
  | nil => rfl
  | cons c cs ih =>
    by_cases h : isPySpace c
    · simp [List.dropWhile, h, ih]
    · simp [List.dropWhile, h]

theorem dropWhile_collapseWs_comm (x : List Char) :
    (collapseWs x).dropWhile isPySpace = collapseWs (x.dropWhile isPySpace) := by
  suffices hgen : ∀ n (x : List Char), x.length ≤ n →
      (collapseWs x).dropWhile isPySpace = collapseWs (x.dropWhile isPySpace) from
    hgen x.length x le_rfl
  intro n
  induction n with
  | zero =>
    intro x hx
    have : x = [] := List.length_eq_zero.mp (Nat.le_zero.mp hx)
    subst this
    rfl
  | succ n ih =>
    intro x hx
    match x with
    | [] => rfl
    | c :: cs =>
      by_cases h : isPySpace c
      · rw [collapseWs_cons_ws c cs h]
        have hlen : (cs.dropWhile isPySpace).length ≤ n := by
          have := (List.dropWhile_sublist (l := cs) isPySpace).length_le
          simp at hx
          omega
        rw [List.dropWhile_cons_of_pos (by decide : isPySpace ' ' = true)]
        rw [ih _ hlen, dropWhile_isPySpace_idem]
        rw [List.dropWhile_cons_of_pos (by simpa using h)]
      · rw [collapseWs_cons_neg c cs h]
        rw [List.dropWhile_cons_of_neg (by simpa using h),
            List.dropWhile_cons_of_neg (by simpa using h)]
        rw [collapseWs_cons_neg c cs h]

/-! ### Unfolding equations for `dashSub` -/

theorem dashSubF_fuel (fuel : Nat) (l : List Char) (h : l.length ≤ fuel) :
    dashSubF fuel l = dashSubF l.length l := by
  induction fuel using Nat.strong_induction_on generalizing l with
  | _ fuel ih =>
    match fuel, l with
    | 0, l =>
      have : l = [] := List.length_eq_zero.mp (Nat.le_zero.mp h)
      subst this
      rfl
    | fuel + 1, [] => rfl
    | fuel + 1, c :: cs =>
      simp only [dashSubF, List.length_cons]
      by_cases hd : ((c :: cs).dropWhile isPySpace).head? = some '-'
      · rw [if_pos hd, if_pos hd]
        have hr2 : (((c :: cs).dropWhile isPySpace).tail.dropWhile isPySpace).length ≤
            cs.length := by
          have h1 := (List.dropWhile_sublist (l := c :: cs) isPySpace).length_le
          have h2 := (List.dropWhile_sublist
            (l := ((c :: cs).dropWhile isPySpace).tail) isPySpace).length_le
          have h3 : ((c :: cs).dropWhile isPySpace).tail.length ≤ cs.length := by
            cases hcase : (c :: cs).dropWhile isPySpace with
            | nil => simp
            | cons d r => rw [hcase] at h1; simp at h1 ⊢; omega
          omega
        rw [ih fuel (Nat.lt_succ_self _) _ (by simp at h ⊢; omega)]
        rw [ih cs.length (by simp at h; omega) _ hr2]
      · rw [if_neg hd, if_neg hd]
        rw [ih fuel (Nat.lt_succ_self _) cs (by simpa using h)]

theorem dashSub_nil : dashSub [] = [] := rfl

theorem dashSub_cons_match (c : Char) (cs r2 : List Char)
    (h : (c :: cs).dropWhile isPySpace = '-' :: r2) :
    dashSub (c :: cs) = ' ' :: '-' :: ' ' :: dashSub (r2.dropWhile isPySpace) := by
  have hr2 : (r2.dropWhile isPySpace).length ≤ cs.length := by
    have h1 := (List.dropWhile_sublist (l := c :: cs) isPySpace).length_le
    rw [h] at h1
    have h2 := (List.dropWhile_sublist (l := r2) isPySpace).length_le
    simp at h1
    omega
  show dashSubF (c :: cs).length (c :: cs) = _
  simp only [List.length_cons, dashSubF, h, List.head?_cons, List.tail_cons, if_true]
  rw [dashSubF_fuel cs.length _ (by simpa using hr2)]
  rfl

theorem dashSub_cons_nomatch (c : Char) (cs : List Char)
    (h : ((c :: cs).dropWhile isPySpace).head? ≠ some '-') :
    dashSub (c :: cs) = c :: dashSub cs := by
  show dashSubF (c :: cs).length (c :: cs) = _
  simp only [List.length_cons, dashSubF]
  rw [if_neg h]
  rfl

theorem dashSub_cons_word (c : Char) (cs : List Char)
    (hc : ¬ isPySpace c) (hd : c ≠ '-') :
    dashSub (c :: cs) = c :: dashSub cs := by
  apply dashSub_cons_nomatch
  rw [List.dropWhile_cons_of_neg (by simpa using hc)]
  simp [hd]

theorem dashSub_cons_dash (cs : List Char) :
    dashSub ('-' :: cs) = ' ' :: '-' :: ' ' :: dashSub (cs.dropWhile isPySpace) := by
  apply dashSub_cons_match
  rw [List.dropWhile_cons_of_neg (by decide)]

/-! ### A normal form for `normalize_playlist_name` outputs

A normalized string is an alternation of maximal words (runs of characters
that are neither whitespace nor a hyphen) and isolated hyphens, with a
single space between adjacent items except between two hyphens, where the
rewrite `\s*-\s* -> " - "` leaves a double space. -/

inductive NItem where
  | dash : NItem
  | word : List Char → NItem
deriving DecidableEq

def isWordChar (c : Char) : Bool := !isPySpace c && c != '-'

def renderItem : NItem → List Char
  | .dash => ['-']
  | .word w => w

def sepOf : NItem → NItem → List Char
  | .dash, .dash => [' ', ' ']
  | _, _ => [' ']

def render : List NItem → List Char
  | [] => []
  | [i] => renderItem i
  | i :: j :: rest => renderItem i ++ sepOf i j ++ render (j :: rest)

/-- Tokenize an arbitrary string into words and hyphens, skipping
whitespace.  Fuel-indexed for structural recursion; `tokenize` supplies
enough fuel. -/
def tokenizeF : Nat → List Char → List NItem
  | 0, _ => []
  | _ + 1, [] => []
  | fuel + 1, c :: cs =>
    if isPySpace c then tokenizeF fuel cs
    else if c = '-' then NItem.dash :: tokenizeF fuel cs
    else NItem.word (c :: cs.takeWhile isWordChar) :: tokenizeF fuel (cs.dropWhile isWordChar)

def tokenize (l : List Char) : List NItem := tokenizeF l.length l

theorem tokenizeF_fuel (fuel : Nat) (l : List Char) (h : l.length ≤ fuel) :
    tokenizeF fuel l = tokenizeF l.length l := by
  induction fuel using Nat.strong_induction_on generalizing l with
  | _ fuel ih =>
    match fuel, l with
    | 0, l =>
      have : l = [] := List.length_eq_zero.mp (Nat.le_zero.mp h)
      subst this
      rfl
    | fuel + 1, [] => rfl
    | fuel + 1, c :: cs =>
      simp only [tokenizeF, List.length_cons]
      by_cases h1 : isPySpace c
      · rw [if_pos h1, if_pos h1, ih fuel (Nat.lt_succ_self _) cs (by simpa using h),
          ih cs.length (by simp at h; omega) cs le_rfl]
      · rw [if_neg h1, if_neg h1]
        by_cases h2 : c = '-'
        · rw [if_pos h2, if_pos h2, ih fuel (Nat.lt_succ_self _) cs (by simpa using h),
            ih cs.length (by simp at h; omega) cs le_rfl]
        · rw [if_neg h2, if_neg h2]
          have hd : (cs.dropWhile isWordChar).length ≤ cs.length :=
            (List.dropWhile_sublist isWordChar).length_le
          rw [ih fuel (Nat.lt_succ_self _) _ (by simp at h ⊢; omega),
            ih cs.length (by simp at h; omega) _ hd]

theorem tokenize_nil : tokenize [] = [] := rfl

theorem tokenize_cons_ws (c : Char) (cs : List Char) (h : isPySpace c) :
    tokenize (c :: cs) = tokenize cs := by
  show tokenizeF (c :: cs).length (c :: cs) = _
  simp only [List.length_cons, tokenizeF, if_pos h]
  exact tokenizeF_fuel cs.length cs le_rfl

theorem tokenize_cons_dash (cs : List Char) :
    tokenize ('-' :: cs) = NItem.dash :: tokenize cs := by
  show tokenizeF ('-' :: cs).length ('-' :: cs) = _
  simp only [List.length_cons, tokenizeF, if_neg (by decide : ¬ isPySpace '-' = true),
    if_pos rfl, if_true]
  rfl

theorem tokenize_cons_word (c : Char) (cs : List Char) (hc : ¬ isPySpace c) (hd : c ≠ '-') :
    tokenize (c :: cs) =
      NItem.word (c :: cs.takeWhile isWordChar) :: tokenize (cs.dropWhile isWordChar) := by
  show tokenizeF (c :: cs).length (c :: cs) = _
  simp only [List.length_cons, tokenizeF, if_neg hc, if_neg hd]
  rw [tokenizeF_fuel cs.length _ (List.dropWhile_sublist isWordChar).length_le]
  rfl

theorem tokenize_dropWhile_ws (x : List Char) :
    tokenize (x.dropWhile isPySpace) = tokenize x := by
  induction x with
  | nil => rfl
  | cons c cs ih =>
    by_cases h : isPySpace c
    · rw [List.dropWhile_cons_of_pos (by simpa using h), ih, tokenize_cons_ws c cs h]
    · rw [List.dropWhile_cons_of_neg (by simpa using h)]

theorem tokenize_nil_all_ws (x : List Char) (h : tokenize x = []) :
    ∀ c ∈ x, isPySpace c := by
  induction x with
  | nil => simp
  | cons c cs ih =>
    intro d hd
    by_cases hc : isPySpace c
    · rw [tokenize_cons_ws c cs hc] at h
      rcases List.mem_cons.mp hd with rfl | hd2
      · exact hc
      · exact ih h d hd2
    · by_cases hdash : c = '-'
      · subst hdash
        rw [tokenize_cons_dash cs] at h
        simp at h
      · rw [tokenize_cons_word c cs hc hdash] at h
        simp at h

theorem dropWhile_head_neg {p : Char → Bool} {l t : List Char} {d : Char}
    (h : l.dropWhile p = d :: t) : p d = false := by
  induction l with
  | nil => simp at h
  | cons c cs ih =>
    by_cases hc : p c
    · rw [List.dropWhile_cons_of_pos hc] at h
      exact ih h
    · rw [List.dropWhile_cons_of_neg hc] at h
      cases h
      simpa using hc

theorem getLast?_append_right (l1 l2 : List Char) (h : l2 ≠ []) :
    (l1 ++ l2).getLast? = l2.getLast? := by
  rw [List.getLast?_append]
  cases hl : l2.getLast? with
  | none => exact absurd (List.getLast?_eq_none_iff.mp hl) h
  | some e => rfl

theorem sepOf_word_left (w : List Char) (j : NItem) : sepOf (.word w) j = [' '] := by
  cases j <;> rfl

theorem render_word_cons_char (c : Char) (W : List Char) (T : List NItem) :
    render (NItem.word (c :: W) :: T) = c :: render (NItem.word W :: T) := by
  cases T with
  | nil => rfl
  | cons j t => simp [render, renderItem, sepOf_word_left]

theorem render_word_cons (w : List Char) (T : List NItem) (h : T ≠ []) :
    render (NItem.word w :: T) = w ++ ' ' :: render T := by
  cases T with
  | nil => exact absurd rfl h
  | cons j t => simp [render, renderItem, sepOf_word_left]

theorem render_dash_dash (t : List NItem) :
    render (NItem.dash :: NItem.dash :: t) = '-' :: ' ' :: ' ' :: render (NItem.dash :: t) := rfl

theorem render_dash_word (w : List Char) (t : List NItem) :
    render (NItem.dash :: NItem.word w :: t) = '-' :: ' ' :: render (NItem.word w :: t) := rfl

theorem render_dash_single : render [NItem.dash] = ['-'] := rfl

/-- The padding that `dashSub` leaves at an end of the string: a space when
the end of the input is whitespace or a hyphen, nothing otherwise. -/
def padOf : Option Char → List Char
  | none => []
  | some c => if isPySpace c ∨ c = '-' then [' '] else []

theorem padOf_ws (c : Char) (h : isPySpace c) : padOf (some c) = [' '] := by
  simp [padOf, h]

theorem padOf_dash : padOf (some '-') = [' '] := by simp [padOf]

theorem padOf_word (c : Char) (h1 : ¬ isPySpace c) (h2 : c ≠ '-') : padOf (some c) = [] := by
  simp [padOf, h1, h2]

theorem padOf_getLast_all_ws (l : List Char) (hne : l ≠ [])
    (h : ∀ x ∈ l, isPySpace x) : padOf l.getLast? = [' '] := by
  rw [List.getLast?_eq_getLast l hne]
  exact padOf_ws _ (h _ (List.getLast_mem hne))

theorem getLast?_ws_run_transfer (c : Char) (cs : List Char)
    (h : cs.dropWhile isPySpace ≠ []) :
    (c :: cs).getLast? = (cs.dropWhile isPySpace).getLast? := by
  conv_lhs => rw [show c :: cs = (c :: cs.takeWhile isPySpace) ++ cs.dropWhile isPySpace by
    simp [List.takeWhile_append_dropWhile]]
  exact getLast?_append_right _ _ h

/-- The two regex rewrites of `normalize_playlist_name` send any string to
the rendering of its token sequence, padded by one space at an end exactly
when the input starts (respectively ends) with whitespace or a hyphen. -/
theorem dcw_render (u : List Char) :
    dashSub (collapseWs u) =
      if tokenize u = [] then (if u = [] then [] else [' '])
      else padOf u.head? ++ render (tokenize u) ++ padOf u.getLast? := by
  suffices hgen : ∀ n (u : List Char), u.length ≤ n →
      dashSub (collapseWs u) =
        (if tokenize u = [] then (if u = [] then [] else [' '])
         else padOf u.head? ++ render (tokenize u) ++ padOf u.getLast?) from
    hgen u.length u le_rfl
  intro n
  induction n with
  | zero =>
    intro u hu
    have : u = [] := List.length_eq_zero.mp (Nat.le_zero.mp hu)
    subst this
    simp [tokenize_nil, collapseWs_nil, dashSub_nil]
  | succ n ih =>
    intro u hu
    match u with
    | [] => simp [tokenize_nil, collapseWs_nil, dashSub_nil]
    | c :: cs =>
      have hcs : cs.length ≤ n := by simp at hu; omega
      by_cases hc : isPySpace c
      · -- head is whitespace
        rw [collapseWs_cons_ws c cs hc, tokenize_cons_ws c cs hc]
        cases hz : cs.dropWhile isPySpace with
        | nil =>
          have hcs0 : tokenize cs = [] := by
            rw [← tokenize_dropWhile_ws cs, hz, tokenize_nil]
          rw [collapseWs_nil, hcs0, if_pos rfl, if_neg (List.cons_ne_nil c cs)]
          decide
        | cons d z' =>
          have hdnws : ¬ isPySpace d = true := by simp [dropWhile_head_neg hz]
          have htz : tokenize (d :: z') = tokenize cs := by
            rw [← hz, tokenize_dropWhile_ws]
          have hzlen : (d :: z').length ≤ n := by
            have := (List.dropWhile_sublist (l := cs) isPySpace).length_le
            rw [hz] at this
            omega
          have ihz := ih (d :: z') hzlen
          rw [collapseWs_cons_neg d z' hdnws] at ihz ⊢
          have hglast : (c :: cs).getLast? = (d :: z').getLast? := by
            rw [getLast?_ws_run_transfer c cs (by rw [hz]; simp), hz]
          by_cases hdd : d = '-'
          · subst hdd
            have hjoin : dashSub (' ' :: '-' :: collapseWs z') =
                dashSub ('-' :: collapseWs z') := by
              rw [dashSub_cons_dash]
              apply dashSub_cons_match
              rw [List.dropWhile_cons_of_pos (by decide : isPySpace ' ' = true),
                List.dropWhile_cons_of_neg (by decide : ¬ isPySpace '-' = true)]
            rw [hjoin, ihz, ← htz, tokenize_cons_dash]
            rw [if_neg (List.cons_ne_nil _ _), if_neg (List.cons_ne_nil _ _)]
            rw [hglast]
            simp [padOf_dash, padOf_ws c hc]
          · have hstep : dashSub (' ' :: d :: collapseWs z') =
                ' ' :: dashSub (d :: collapseWs z') := by
              apply dashSub_cons_nomatch
              rw [List.dropWhile_cons_of_pos (by decide : isPySpace ' ' = true),
                List.dropWhile_cons_of_neg hdnws]
              simp [hdd]
            rw [hstep, ihz, ← htz, tokenize_cons_word d z' hdnws hdd]
            rw [if_neg (List.cons_ne_nil _ _), if_neg (List.cons_ne_nil _ _)]
            rw [hglast]
            simp [padOf_ws c hc, padOf_word d hdnws hdd]
      · by_cases hdash : c = '-'
        · -- head is a hyphen
          subst hdash
          rw [collapseWs_cons_neg '-' cs (by decide), dashSub_cons_dash,
            dropWhile_collapseWs_comm, tokenize_cons_dash]
          cases hz : cs.dropWhile isPySpace with
          | nil =>
            have hcs0 : tokenize cs = [] := by
              rw [← tokenize_dropWhile_ws cs, hz, tokenize_nil]
            rw [collapseWs_nil, dashSub_nil, hcs0]
            rw [if_neg (List.cons_ne_nil _ _)]
            have hlast : padOf (('-' :: cs).getLast?) = [' '] := by
              cases hcse : cs with
              | nil => simp [padOf]
              | cons e cs2 =>
                rw [show ('-' :: e :: cs2).getLast? = (e :: cs2).getLast? by
                  exact getLast?_append_right ['-'] (e :: cs2) (by simp)]
                exact padOf_getLast_all_ws (e :: cs2) (by simp)
                  (by
                    intro x hx
                    exact (List.dropWhile_eq_nil_iff.mp (hcse ▸ hz)) x hx)
            rw [hlast]
            simp [padOf_dash, render_dash_single]
          | cons d z' =>
            have hdnws : ¬ isPySpace d = true := by simp [dropWhile_head_neg hz]
            have htz : tokenize (d :: z') = tokenize cs := by
              rw [← hz, tokenize_dropWhile_ws]
            have hzlen : (d :: z').length ≤ n := by
              have := (List.dropWhile_sublist (l := cs) isPySpace).length_le
              rw [hz] at this
              omega
            have ihz := ih (d :: z') hzlen
            rw [collapseWs_cons_neg d z' hdnws] at ihz
            have hglast : ('-' :: cs).getLast? = (d :: z').getLast? := by
              rw [getLast?_ws_run_transfer '-' cs (by rw [hz]; simp), hz]
            rw [collapseWs_cons_neg d z' hdnws, ihz, ← htz]
            by_cases hdd : d = '-'
            · subst hdd
              rw [tokenize_cons_dash]
              rw [if_neg (List.cons_ne_nil _ _), if_neg (List.cons_ne_nil _ _)]
              rw [hglast, render_dash_dash]
              simp [padOf_dash]
            · rw [tokenize_cons_word d z' hdnws hdd]
              rw [if_neg (List.cons_ne_nil _ _), if_neg (List.cons_ne_nil _ _)]
              rw [hglast, render_dash_word]
              simp [padOf_dash, padOf_word d hdnws hdd]
        · -- head is a word character
          rw [collapseWs_cons_neg c cs hc, dashSub_cons_word c _ hc hdash,
            tokenize_cons_word c cs hc hdash]
          cases hcse : cs with
          | nil =>
            simp only [List.dropWhile_nil, List.takeWhile_nil, tokenize_nil,
              collapseWs_nil, dashSub_nil]
            rw [if_neg (List.cons_ne_nil _ _)]
            simp only [List.head?_cons, List.getLast?_singleton]
            rw [padOf_word c hc hdash]
            simp [render, renderItem]
          | cons e cs2 =>
            rw [← hcse]
            have ihcs := ih cs hcs
            by_cases hwe : isWordChar e
            · have hwe2 : ¬ isPySpace e = true ∧ e ≠ '-' := by
                have := hwe
                unfold isWordChar at this
                simp at this
                exact ⟨by simp [this.1], this.2⟩
              have htkcs : tokenize cs =
                  NItem.word (e :: cs2.takeWhile isWordChar) ::
                    tokenize (cs2.dropWhile isWordChar) := by
                rw [hcse]
                exact tokenize_cons_word e cs2 hwe2.1 hwe2.2
              rw [htkcs, if_neg (List.cons_ne_nil _ _)] at ihcs
              have hhead : padOf cs.head? = [] := by
                rw [hcse]
                exact padOf_word e hwe2.1 hwe2.2
              rw [hhead] at ihcs
              have htake : cs.takeWhile isWordChar = e :: cs2.takeWhile isWordChar := by
                rw [hcse, List.takeWhile_cons_of_pos hwe]
              have hdrop : cs.dropWhile isWordChar = cs2.dropWhile isWordChar := by
                rw [hcse, List.dropWhile_cons_of_pos hwe]
              rw [htake, hdrop, ihcs]
              rw [if_neg (List.cons_ne_nil _ _)]
              rw [render_word_cons_char c (e :: List.takeWhile isWordChar cs2)
                (tokenize (List.dropWhile isWordChar cs2))]
              have hlast : (c :: cs).getLast? = cs.getLast? := by
                rw [hcse]
                exact getLast?_append_right [c] (e :: cs2) (by simp)
              rw [hlast]
              simp [padOf_word c hc hdash]
            · have hwe2 : isPySpace e = true ∨ e = '-' := by
                unfold isWordChar at hwe
                simp at hwe
                by_cases h1 : isPySpace e
                · exact Or.inl h1
                · exact Or.inr (hwe (by simp [h1]))
              have htake : cs.takeWhile isWordChar = [] := by
                rw [hcse, List.takeWhile_cons_of_neg (by simpa using hwe)]
              have hdrop : cs.dropWhile isWordChar = cs := by
                rw [hcse, List.dropWhile_cons_of_neg (by simpa using hwe)]
              rw [htake, hdrop]
              have hlast : (c :: cs).getLast? = cs.getLast? := by
                rw [hcse]
                exact getLast?_append_right [c] (e :: cs2) (by simp)
              by_cases htcs : tokenize cs = []
              · rw [htcs, if_pos rfl, if_neg (by rw [hcse]; simp [List.cons_ne_nil])] at ihcs
                rw [htcs, ihcs]
                rw [if_neg (List.cons_ne_nil _ _)]
                have hpl : padOf (c :: cs).getLast? = [' '] := by
                  rw [hlast]
                  exact padOf_getLast_all_ws cs (by rw [hcse]; simp)
                    (tokenize_nil_all_ws cs htcs)
                rw [hpl]
                simp [render, renderItem, padOf_word c hc hdash]
              · rw [if_neg htcs] at ihcs
                have hph : padOf cs.head? = [' '] := by
                  rw [hcse]
                  rcases hwe2 with h | h
                  · exact padOf_ws e h
                  · rw [h]
                    exact padOf_dash
                rw [hph] at ihcs
                rw [ihcs, if_neg (List.cons_ne_nil _ _)]
                rw [render_word_cons [c] (tokenize cs) htcs]
                rw [hlast]
                simp [padOf_word c hc hdash]

/-- Legal token lists: every word is nonempty and made of word characters. -/
def legalItems (items : List NItem) : Prop :=
  ∀ w, NItem.word w ∈ items → w ≠ [] ∧ ∀ c ∈ w, isWordChar c

theorem legalItems_tail {i : NItem} {t : List NItem} (h : legalItems (i :: t)) :
    legalItems t := fun w hw => h w (List.mem_cons_of_mem i hw)

theorem tokenize_legal (x : List Char) : legalItems (tokenize x) := by
  suffices hgen : ∀ n (x : List Char), x.length ≤ n → legalItems (tokenize x) from
    hgen x.length x le_rfl
  intro n
  induction n with
  | zero =>
    intro x hx
    have : x = [] := List.length_eq_zero.mp (Nat.le_zero.mp hx)
    subst this
    intro w hw
    simp [tokenize_nil] at hw
  | succ n ih =>
    intro x hx
    match x with
    | [] => intro w hw; simp [tokenize_nil] at hw
    | c :: cs =>
      have hcs : cs.length ≤ n := by simp at hx; omega
      by_cases hc : isPySpace c
      · rw [tokenize_cons_ws c cs hc]
        exact ih cs hcs
      · by_cases hd : c = '-'
        · subst hd
          rw [tokenize_cons_dash]
          intro w hw
          rcases List.mem_cons.mp hw with hcontra | hw2
          · cases hcontra
          · exact ih cs hcs w hw2
        · rw [tokenize_cons_word c cs hc hd]
          intro w hw
          rcases List.mem_cons.mp hw with heq | hw2
          · cases heq
            refine ⟨by simp, ?_⟩
            intro a ha
            rcases List.mem_cons.mp ha with rfl | ha2
            · simp [isWordChar, hc, hd]
            · exact List.mem_takeWhile_imp ha2
          · have hlen : (cs.dropWhile isWordChar).length ≤ n :=
              le_trans (List.dropWhile_sublist isWordChar).length_le hcs
            exact ih _ hlen w hw2

theorem word_chars_in_source (x : List Char) (w : List Char)
    (hw : NItem.word w ∈ tokenize x) : ∀ c ∈ w, c ∈ x := by
  suffices hgen : ∀ n (x w : List Char), x.length ≤ n → NItem.word w ∈ tokenize x →
      ∀ c ∈ w, c ∈ x from hgen x.length x w le_rfl hw
  clear hw x w
  intro n
  induction n with
  | zero =>
    intro x w hx hw
    have : x = [] := List.length_eq_zero.mp (Nat.le_zero.mp hx)
    subst this
    simp [tokenize_nil] at hw
  | succ n ih =>
    intro x w hx hw
    match x with
    | [] => simp [tokenize_nil] at hw
    | c :: cs =>
      have hcs : cs.length ≤ n := by simp at hx; omega
      by_cases hc : isPySpace c
      · rw [tokenize_cons_ws c cs hc] at hw
        intro a ha
        exact List.mem_cons_of_mem c (ih cs w hcs hw a ha)
      · by_cases hd : c = '-'
        · subst hd
          rw [tokenize_cons_dash] at hw
          rcases List.mem_cons.mp hw with hcontra | hw2
          · cases hcontra
          · intro a ha
            exact List.mem_cons_of_mem _ (ih cs w hcs hw2 a ha)
        · rw [tokenize_cons_word c cs hc hd] at hw
          rcases List.mem_cons.mp hw with heq | hw2
          · cases heq
            intro a ha
            rcases List.mem_cons.mp ha with rfl | ha2
            · exact List.mem_cons_self a cs
            · exact List.mem_cons_of_mem c
                ((List.takeWhile_sublist isWordChar).mem ha2)
          · intro a ha
            have hlen : (cs.dropWhile isWordChar).length ≤ n :=
              le_trans (List.dropWhile_sublist isWordChar).length_le hcs
            exact List.mem_cons_of_mem c
              ((List.dropWhile_sublist isWordChar).mem
                (ih _ w hlen hw2 a ha))

theorem sepOf_all_space (i j : NItem) : ∀ c ∈ sepOf i j, c = ' ' := by
  cases i <;> cases j <;> simp [sepOf]

theorem mem_render_cases (items : List NItem) (c : Char) (hc : c ∈ render items) :
    c = ' ' ∨ c = '-' ∨ ∃ w, NItem.word w ∈ items ∧ c ∈ w := by
  induction items with
  | nil => simp [render] at hc
  | cons i t ih =>
    cases t with
    | nil =>
      cases i with
      | dash => simp [render, renderItem] at hc; simp [hc]
      | word w =>
        right; right
        exact ⟨w, List.mem_cons_self _ _, by simpa [render, renderItem] using hc⟩
    | cons j t2 =>
      rw [show render (i :: j :: t2) = renderItem i ++ sepOf i j ++ render (j :: t2) from rfl]
        at hc
      rcases List.mem_append.mp hc with h1 | h2
      · rcases List.mem_append.mp h1 with h3 | h4
        · cases i with
          | dash => simp [renderItem] at h3; simp [h3]
          | word w =>
            right; right
            exact ⟨w, List.mem_cons_self _ _, by simpa [renderItem] using h3⟩
        · exact Or.inl (sepOf_all_space i j c h4)
      · rcases ih h2 with h | h | ⟨w, hw, hcw⟩
        · exact Or.inl h
        · exact Or.inr (Or.inl h)
        · exact Or.inr (Or.inr ⟨w, List.mem_cons_of_mem i hw, hcw⟩)

theorem takeWhile_append_all {p : Char → Bool} (l1 l2 : List Char)
    (h : ∀ c ∈ l1, p c) : (l1 ++ l2).takeWhile p = l1 ++ l2.takeWhile p := by
  induction l1 with
  | nil => rfl
  | cons a l ih =>
    rw [List.cons_append, List.takeWhile_cons_of_pos (h a (List.mem_cons_self a l))]
    rw [ih (fun c hc => h c (List.mem_cons_of_mem a hc))]
    rfl

theorem dropWhile_append_all {p : Char → Bool} (l1 l2 : List Char)
    (h : ∀ c ∈ l1, p c) : (l1 ++ l2).dropWhile p = l2.dropWhile p := by
  induction l1 with
  | nil => rfl
  | cons a l ih =>
    rw [List.cons_append, List.dropWhile_cons_of_pos (h a (List.mem_cons_self a l))]
    exact ih (fun c hc => h c (List.mem_cons_of_mem a hc))

theorem tokenize_ws_skip (p z : List Char) (h : ∀ c ∈ p, isPySpace c) :
    tokenize (p ++ z) = tokenize z := by
  induction p with
  | nil => rfl
  | cons a l ih =>
    rw [List.cons_append, tokenize_cons_ws a _ (h a (List.mem_cons_self a l))]
    exact ih (fun c hc => h c (List.mem_cons_of_mem a hc))

theorem tokenize_word_block (w z : List Char) (hne : w ≠ [])
    (hall : ∀ c ∈ w, isWordChar c) (hz : z.takeWhile isWordChar = []) :
    tokenize (w ++ z) = NItem.word w :: tokenize z := by
  cases w with
  | nil => exact absurd rfl hne
  | cons c w2 =>
    have hc := hall c (List.mem_cons_self c w2)
    have hcw : ¬ isPySpace c = true ∧ c ≠ '-' := by
      unfold isWordChar at hc
      simp at hc
      exact ⟨by simp [hc.1], hc.2⟩
    rw [List.cons_append, tokenize_cons_word c _ hcw.1 hcw.2]
    have hall2 : ∀ a ∈ w2, isWordChar a := fun a ha => hall a (List.mem_cons_of_mem c ha)
    rw [takeWhile_append_all w2 z hall2, dropWhile_append_all w2 z hall2, hz,
      List.append_nil]
    have hzdrop : z.dropWhile isWordChar = z := by
      cases z with
      | nil => rfl
      | cons d z2 =>
        by_cases hd : isWordChar d
        · rw [List.takeWhile_cons_of_pos hd] at hz
          simp at hz
        · exact List.dropWhile_cons_of_neg hd
    rw [hzdrop]

theorem tokenize_render (items : List NItem) (h : legalItems items) :
    tokenize (render items) = items := by
  induction items with
  | nil => rfl
  | cons i t ih =>
    have ht := legalItems_tail h
    cases i with
    | dash =>
      cases t with
      | nil => rfl
      | cons j t2 =>
        rw [show render (.dash :: j :: t2) = '-' :: (sepOf .dash j ++ render (j :: t2))
          from rfl]
        rw [tokenize_cons_dash, tokenize_ws_skip _ _ (by
          intro c hc
          rw [sepOf_all_space .dash j c hc]
          decide)]
        rw [ih ht]
    | word w =>
      have hw := h w (List.mem_cons_self _ _)
      cases t with
      | nil =>
        rw [show render [NItem.word w] = w ++ [] by simp [render, renderItem]]
        rw [tokenize_word_block w [] hw.1 hw.2 rfl]
        rfl
      | cons j t2 =>
        rw [render_word_cons w (j :: t2) (List.cons_ne_nil _ _)]
        rw [tokenize_word_block w (' ' :: render (j :: t2)) hw.1 hw.2
          (List.takeWhile_cons_of_neg (by decide))]
        rw [tokenize_cons_ws ' ' _ (by decide), ih ht]

theorem render_cons_eq_append (i : NItem) (t : List NItem) :
    ∃ rest, render (i :: t) = renderItem i ++ rest := by
  cases t with
  | nil => exact ⟨[], by simp [render]⟩
  | cons j t2 => exact ⟨sepOf i j ++ render (j :: t2), by simp [render]⟩

theorem render_cons_ne_nil (i : NItem) (t : List NItem) (h : legalItems (i :: t)) :
    render (i :: t) ≠ [] := by
  obtain ⟨rest, hr⟩ := render_cons_eq_append i t
  rw [hr]
  cases i with
  | dash => simp [renderItem]
  | word w =>
    have hw := h w (List.mem_cons_self _ _)
    simp [renderItem, hw.1]

theorem render_head_nonws (i : NItem) (t : List NItem) (h : legalItems (i :: t)) :
    ∀ c, (render (i :: t)).head? = some c → ¬ isPySpace c := by
  obtain ⟨rest, hr⟩ := render_cons_eq_append i t
  rw [hr]
  cases i with
  | dash =>
    intro c hc
    simp [renderItem] at hc
    subst hc
    decide
  | word w =>
    have hw := h w (List.mem_cons_self _ _)
    cases hww : w with
    | nil => exact absurd hww hw.1
    | cons c0 w2 =>
      intro c hc
      simp [renderItem, hww] at hc
      subst hc
      have := hw.2 c0 (by rw [hww]; exact List.mem_cons_self _ _)
      unfold isWordChar at this
      simp at this
      simp [this.1]

theorem render_getLast_nonws (items : List NItem) (h : legalItems items)
    (hne : items ≠ []) :
    ∀ c, (render items).getLast? = some c → ¬ isPySpace c := by
  induction items with
  | nil => exact absurd rfl hne
  | cons i t ih =>
    cases t with
    | nil =>
      cases i with
      | dash =>
        intro c hc
        simp [render, renderItem] at hc
        subst hc
        decide
      | word w =>
        have hw := h w (List.mem_cons_self _ _)
        intro c hc
        rw [show render [NItem.word w] = w from rfl] at hc
        rw [List.getLast?_eq_getLast w hw.1] at hc
        cases hc
        have := hw.2 _ (List.getLast_mem hw.1)
        unfold isWordChar at this
        simp at this
        simp [this.1]
    | cons j t2 =>
      have htail := legalItems_tail h
      intro c hc
      rw [show render (i :: j :: t2) = renderItem i ++ sepOf i j ++ render (j :: t2)
        from rfl] at hc
      rw [List.append_assoc] at hc
      rw [getLast?_append_right (renderItem i) (sepOf i j ++ render (j :: t2))
        (by simp [render_cons_ne_nil j t2 htail])] at hc
      rw [getLast?_append_right (sepOf i j) (render (j :: t2))
        (render_cons_ne_nil j t2 htail)] at hc
      exact ih htail (List.cons_ne_nil _ _) c hc

theorem dropWhile_eq_self_of_head (l : List Char)
    (h : ∀ c, l.head? = some c → ¬ isPySpace c) : l.dropWhile isPySpace = l := by
  cases l with
  | nil => rfl
  | cons c cs => exact List.dropWhile_cons_of_neg (by simpa using h c rfl)

theorem padOf_cases (o : Option Char) : padOf o = [] ∨ padOf o = [' '] := by
  cases o with
  | none => exact Or.inl rfl
  | some c =>
    by_cases h : isPySpace c = true ∨ c = '-'
    · exact Or.inr (by simp [padOf, h])
    · exact Or.inl (by simp [padOf, h])

theorem stripWs_pads (v b1 b2 : List Char)
    (hb1 : b1 = [] ∨ b1 = [' ']) (hb2 : b2 = [] ∨ b2 = [' '])
    (hne : v ≠ [])
    (hh : ∀ c, v.head? = some c → ¬ isPySpace c)
    (hl : ∀ c, v.getLast? = some c → ¬ isPySpace c) :
    stripWs (b1 ++ v ++ b2) = v := by
  have step1 : lstripWs (b1 ++ v ++ b2) = v ++ b2 := by
    have hcore : (v ++ b2).dropWhile isPySpace = v ++ b2 := by
      apply dropWhile_eq_self_of_head
      intro c hc
      cases v with
      | nil => exact absurd rfl hne
      | cons c0 v2 =>
        simp at hc
        subst hc
        exact hh c0 rfl
    rcases hb1 with rfl | rfl
    · simpa [lstripWs] using hcore
    · show ((' ' :: v) ++ b2).dropWhile isPySpace = v ++ b2
      rw [List.cons_append, List.dropWhile_cons_of_pos (by decide)]
      exact hcore
  show rstripWs (lstripWs (b1 ++ v ++ b2)) = v
  rw [step1]
  show ((v ++ b2).reverse.dropWhile isPySpace).reverse = v
  rw [List.reverse_append]
  have hrev : v.reverse.dropWhile isPySpace = v.reverse := by
    apply dropWhile_eq_self_of_head
    intro c hc
    rw [List.head?_reverse] at hc
    exact hl c hc
  rcases hb2 with rfl | rfl
  · simp only [List.reverse_nil, List.nil_append]
    rw [hrev, List.reverse_reverse]
  · show ((' ' :: v.reverse).dropWhile isPySpace).reverse = v
    rw [List.dropWhile_cons_of_pos (by decide), hrev, List.reverse_reverse]

/-- `normalize_playlist_name` is exactly the rendering of the token sequence
of the lowercased, glyph-replaced input. -/
theorem normalize_eq_render (u : List Char) :
    normalize_playlist_name u =
      render (tokenize ((u.map pyLower).map replaceSpecials)) := by
  unfold normalize_playlist_name
  rw [dcw_render]
  by_cases h : tokenize ((u.map pyLower).map replaceSpecials) = []
  · rw [if_pos h, h]
    by_cases h2 : (u.map pyLower).map replaceSpecials = []
    · rw [if_pos h2]
      rfl
    · rw [if_neg h2]
      decide
  · rw [if_neg h]
    have hleg := tokenize_legal ((u.map pyLower).map replaceSpecials)
    cases htk : tokenize ((u.map pyLower).map replaceSpecials) with
    | nil => exact absurd htk h
    | cons i t =>
      rw [htk] at hleg
      apply stripWs_pads
      · exact padOf_cases _
      · exact padOf_cases _
      · exact render_cons_ne_nil i t hleg
      · exact render_head_nonws i t hleg
      · exact render_getLast_nonws (i :: t) hleg (List.cons_ne_nil _ _)

theorem map_fix {f : Char → Char} (l : List Char) (h : ∀ c ∈ l, f c = c) :
    l.map f = l := by
  induction l with
  | nil => rfl
  | cons a t ih =>
    rw [List.map_cons, h a (List.mem_cons_self a t),
      ih (fun c hc => h c (List.mem_cons_of_mem a hc))]

theorem goodChar_render_tokenize (u : List Char) :
    ∀ c ∈ render (tokenize ((u.map pyLower).map replaceSpecials)), goodChar c := by
  intro c hc
  rcases mem_render_cases _ c hc with rfl | rfl | ⟨w, hw, hcw⟩
  · exact goodChar_space
  · exact goodChar_dash
  · have hcv : c ∈ (u.map pyLower).map replaceSpecials :=
      word_chars_in_source _ w hw c hcw
    rcases List.mem_map.mp hcv with ⟨b, hb, rfl⟩
    rcases List.mem_map.mp hb with ⟨a, _, rfl⟩
    exact goodChar_image a

/-- C9: `normalize_playlist_name` is idempotent (applying it twice equals
applying it once, for every input string) and identifies case, dash-glyph
and whitespace variants; in particular it maps `"Foo — Bar"` and
`"foo - bar"` to the same string. -/
theorem c9_normalize_playlist_name_idempotent :
    (∀ s : List Char, normalize_playlist_name (normalize_playlist_name s) =
      normalize_playlist_name s) ∧
    normalize_playlist_name ("Foo — Bar".toList) =
      normalize_playlist_name ("foo - bar".toList) ∧
    normalize_playlist_name ("FOO   bar".toList) =
      normalize_playlist_name ("foo bar".toList) := by
  refine ⟨?_, by decide, by decide⟩
  intro s
  rw [normalize_eq_render s, normalize_eq_render]
  have hg := goodChar_render_tokenize s
  rw [map_fix _ (fun c hc => (hg c hc).1)]
  rw [map_fix _ (fun c hc => (hg c hc).2)]
  rw [tokenize_render _ (tokenize_legal _)]

/-! ### The markdown catalog parser and annotator -/

/-- Models `str.endswith` via list suffix testing, then removal and
`rstrip`, for one hint string: the two `endswith` checks of
`strip_status_hints` (source lines 63-69). -/
def tryStripHint (name hint : List Char) : Option (List Char) :=
  if hint = [] then none
  else if (' ' :: hint).isSuffixOf name then
    some (rstripWs (name.take (name.length - hint.length - 1)))
  else if hint.isSuffixOf name then
    some (rstripWs (name.take (name.length - hint.length)))
  else none

/-- Models `strip_status_hints` (source lines 63-69): try the not-found
hint first, then the skipped hint; at most one hint is stripped. -/
def strip_status_hints (name nf sk : List Char) : List Char :=
  match tryStripHint name nf with
  | some r => r
  | none =>
    match tryStripHint name sk with
    | some r => r
    | none => name

/-- The fixed literal part of the artist-link regex of
`strip_spotify_link` (source line 73). -/
def spotifyLinkLit : List Char := "[spotify](https://open.spotify.com/artist/".toList

/-- Models the character class `[a-zA-Z0-9]` of the artist-link regex. -/
def isLinkIdChar (c : Char) : Bool := c.isAlpha || c.isDigit

/-- Match length of `\s*\[spotify\]\(https://open\.spotify\.com/artist/[a-zA-Z0-9]+\)`
at the head of `l`, if any. -/
def matchLink (l : List Char) : Option Nat :=
  let w := l.takeWhile isPySpace
  let r := l.dropWhile isPySpace
  if spotifyLinkLit.isPrefixOf r then
    let r2 := r.drop spotifyLinkLit.length
    let d := r2.takeWhile isLinkIdChar
    if d ≠ [] ∧ (r2.drop d.length).head? = some ')' then
      some (w.length + spotifyLinkLit.length + d.length + 1)
    else none
  else none

/-- Fuel-indexed left-to-right scan of `re.sub(pattern, "", name)` for the
artist-link pattern: each leftmost match is deleted, scanning resumes after
it; the fuel (one unit per consumed character) is only a termination
device. -/
def subLinkF : Nat → List Char → List Char
  | 0, l => l
  | _ + 1, [] => []
  | fuel + 1, c :: cs =>
    match matchLink (c :: cs) with
    | some k => subLinkF fuel ((c :: cs).drop k)
    | none => c :: subLinkF fuel cs

/-- Models `strip_spotify_link` (source lines 72-73): delete every artist
link annotation, then `rstrip`. -/
def strip_spotify_link (name : List Char) : List Char :=
  rstripWs (subLinkF name.length name)

/-- Models `format_hint` (source lines 76-77): a leading space plus the
left-stripped hint, or nothing for an empty hint. -/
def format_hint (hint : List Char) : List Char :=
  if hint = [] then [] else ' ' :: lstripWs hint

/-- Value of a decimal digit string, as Python `int` computes it. -/
def digitsToNat (ds : List Char) : Nat := ds.foldl (fun a c => 10 * a + (c.toNat - 48)) 0

/-- Models `parse_band_entry` (source lines 94-98): the regex
`^(.+?)\s*\((\d+)\)\s*$` matched functionally from the right end.  After
stripping trailing whitespace the string must end in `)`, preceded by a
nonempty maximal digit run, preceded by `(`; the lazy group 1 is what
remains with its trailing whitespace handed to `\s*` (and then `rstrip`ped
by the source, which can leave an empty name when only whitespace
remains). -/
def parse_band_entry (name : List Char) : List Char × Option Nat :=
  let r := name.reverse.dropWhile isPySpace
  if r.head? = some ')' then
    let rest := r.tail
    let ds := rest.takeWhile Char.isDigit
    if ds = [] then (name, none)
    else if (rest.drop ds.length).head? = some '(' then
      let rest3 := (rest.drop ds.length).tail
      let g := rest3.dropWhile isPySpace
      if g ≠ [] then (g.reverse, some (digitsToNat ds.reverse))
      else if rest3 ≠ [] then ([], some (digitsToNat ds.reverse))
      else (name, none)
    else (name, none)
  else (name, none)

/-- Models the bullet-line regexes `^\s*-\s+(.+?)\s*$` (source line 108) and
`^(\s*-\s+)(.+?)\s*$` (source line 136): on success returns the matched
prefix `\s*-\s+` and the trailing-whitespace-stripped entry text.  When the
text after `- ` is all whitespace, the backtracking regex still matches
with the last whitespace character as group contents. -/
def bulletMatch (line : List Char) : Option (List Char × List Char) :=
  let a := line.takeWhile isPySpace
  match line.dropWhile isPySpace with
  | '-' :: R =>
    let w := R.takeWhile isPySpace
    let S := R.dropWhile isPySpace
    if w = [] then none
    else if S ≠ [] then some (a ++ '-' :: w, rstripWs S)
    else
      match R.getLast? with
      | some c => if 2 ≤ R.length then some (a ++ '-' :: R.dropLast, [c]) else none
      | none => none
  | _ => none

/-- Insert into an association list with Python `dict` overwrite
semantics. -/
def dictInsert (d : List (List Char × Nat)) (k : List Char) (v : Nat) :
    List (List Char × Nat) :=
  if (d.lookup k).isSome then d.map (fun p => if p.1 = k then (k, v) else p)
  else d ++ [(k, v)]

/-- Models `load_bands` (source lines 101-119) over the document's lines:
returns the band list, the intentionally-skipped set and the per-band
track-count overrides. -/
def load_bands (lines : List (List Char)) (nf sk : List Char) :
    List (List Char) × List (List Char) × List (List Char × Nat) :=
  lines.foldl (fun acc line =>
    match bulletMatch line with
    | none => acc
    | some (_, raw) =>
      let base2 := strip_spotify_link (strip_status_hints raw nf sk)
      let pe := parse_band_entry base2
      let bands := acc.1 ++ [pe.1]
      let skipped := if sk ≠ [] ∧ sk.isSuffixOf raw then acc.2.1 ++ [pe.1] else acc.2.1
      let ovs := match pe.2 with
        | some n => dictInsert acc.2.2 pe.1 n
        | none => acc.2.2
      (bands, skipped, ovs)) ([], [], [])

/-- Models the per-line rewrite of `update_bands_hints` (source lines
135-150): recompute the base name by stripping hint and link (only), then
append the skipped hint, else the not-found hint, else a fresh profile
link when one is known. -/
def update_line (nf sk : List Char) (not_found_exact intentionally_skipped : List (List Char))
    (artist_urls : List (List Char × List Char)) (line : List Char) : List Char :=
  match bulletMatch line with
  | none => line
  | some (pre, raw) =>
    let base := strip_spotify_link (strip_status_hints raw nf sk)
    if base ∈ intentionally_skipped then pre ++ base ++ format_hint sk
    else if base ∈ not_found_exact then pre ++ base ++ format_hint nf
    else
      match List.lookup base artist_urls with
      | some url => pre ++ base ++ ((" [spotify](").toList ++ url ++ [')'])
      | none => pre ++ base

/-- Models `update_bands_hints` (source lines 122-152) on the whole
document: every line is rewritten independently. -/
def update_bands_hints (lines : List (List Char)) (not_found_exact intentionally_skipped :
    List (List Char)) (nf sk : List Char)
    (artist_urls : List (List Char × List Char)) : List (List Char) :=
  lines.map (update_line nf sk not_found_exact intentionally_skipped artist_urls)

/-- When `parse_band_entry` finds no track-count override it leaves the
name unchanged. -/
theorem parse_band_entry_none (x : List Char) (h : (parse_band_entry x).2 = none) :
    (parse_band_entry x).1 = x := by
  simp only [parse_band_entry] at h ⊢
  split_ifs at h ⊢ <;> simp_all

theorem length_pos_of_head?_some {l : List Char} {c : Char} (h : l.head? = some c) :
    0 < l.length := by
  cases l with
  | nil => simp at h
  | cons a t => simp

/-- When `parse_band_entry` finds a track-count override, the returned
name is strictly shorter than the input (the `(<n>)` suffix is gone). -/
theorem parse_band_entry_some_shorter (x : List Char) (n : Nat)
    (h : (parse_band_entry x).2 = some n) :
    (parse_band_entry x).1.length < x.length := by
  have hr : (x.reverse.dropWhile isPySpace).length ≤ x.length := by
    have h1 := (List.dropWhile_sublist (l := x.reverse) isPySpace).length_le
    simpa using h1
  simp only [parse_band_entry] at h ⊢
  split_ifs at h ⊢ with h1 h2 h3 h4 h5
  · -- override found, nonempty group
    have hr1 : 0 < (x.reverse.dropWhile isPySpace).length := length_pos_of_head?_some h1
    have hds : 0 < ((x.reverse.dropWhile isPySpace).tail.takeWhile Char.isDigit).length := by
      cases hd : (x.reverse.dropWhile isPySpace).tail.takeWhile Char.isDigit with
      | nil => exact absurd hd h2
      | cons a t => simp [hd]
    have hk : 0 < ((x.reverse.dropWhile isPySpace).tail.drop
        ((x.reverse.dropWhile isPySpace).tail.takeWhile Char.isDigit).length).length :=
      length_pos_of_head?_some h3
    have htl : (x.reverse.dropWhile isPySpace).tail.length =
        (x.reverse.dropWhile isPySpace).length - 1 := List.length_tail _
    have hkd : ((x.reverse.dropWhile isPySpace).tail.drop
        ((x.reverse.dropWhile isPySpace).tail.takeWhile Char.isDigit).length).length =
        (x.reverse.dropWhile isPySpace).tail.length -
          ((x.reverse.dropWhile isPySpace).tail.takeWhile Char.isDigit).length :=
      List.length_drop _ _
    have hg := (List.dropWhile_sublist (l := ((x.reverse.dropWhile isPySpace).tail.drop
        ((x.reverse.dropWhile isPySpace).tail.takeWhile Char.isDigit).length).tail)
      isPySpace).length_le
    have ht3 : ((x.reverse.dropWhile isPySpace).tail.drop
        ((x.reverse.dropWhile isPySpace).tail.takeWhile Char.isDigit).length).tail.length =
        ((x.reverse.dropWhile isPySpace).tail.drop
          ((x.reverse.dropWhile isPySpace).tail.takeWhile Char.isDigit).length).length - 1 :=
      List.length_tail _
    simp only [List.length_reverse]
    omega
  · -- override found, group is all whitespace: the name becomes empty
    have hr1 : 0 < (x.reverse.dropWhile isPySpace).length := length_pos_of_head?_some h1
    simp only [List.length_nil]
    omega

/-- C1 (counterexample): on the document line `- Beta (2) _(sk)_` the
parser's base name is `Beta` (placed in the intentionally-skipped set), but
the annotator recomputes the base name as `Beta (2)` — it does not strip
the track-count override — so the rewritten line is `- Beta (2)`: the
skipped hint is not re-appended, contradicting the claim for entries whose
line carries a `(<integer>)` override suffix. -/
theorem c1_counterexample :
    (load_bands [(("- Beta (2) _(sk)_").toList)] (("_(nf)_").toList) (("_(sk)_").toList)).1 =
      [("Beta").toList] ∧
    (load_bands [(("- Beta (2) _(sk)_").toList)] (("_(nf)_").toList) (("_(sk)_").toList)).2.1 =
      [("Beta").toList] ∧
    strip_spotify_link (strip_status_hints (("Beta (2) _(sk)_").toList)
      (("_(nf)_").toList) (("_(sk)_").toList)) = ("Beta (2)").toList ∧
    ("Beta (2)").toList ≠ ("Beta").toList ∧
    update_line (("_(nf)_").toList) (("_(sk)_").toList) [] [("Beta").toList] []
      (("- Beta (2) _(sk)_").toList) = ("- Beta (2)").toList ∧
    update_line (("_(nf)_").toList) (("_(sk)_").toList) [] [("Beta").toList] []
      (("- Beta (2) _(sk)_").toList) ≠ ("- Beta _(sk)_").toList := by
  refine ⟨?_, ?_, ?_, ?_, ?_, ?_⟩ <;> decide

/-- C1 (amended): for EVERY bullet line — override-suffixed entries
included — the annotator recomputes the base name by stripping the status
hint and the profile link only, and appends exactly one annotation chosen
by membership of that name (skipped hint first, then not-found hint, then
a profile link when one is known, else nothing).  The recomputed base name
agrees with the parser's exactly when the stripped name carries no
trailing `(<integer>)` override: with no override the two coincide, and
with an override the annotator retains the suffix the parser strips, so
the two differ and membership is tested against the suffixed name. -/
theorem c1_annotator_rewrite (line pre raw nf sk : List Char)
    (nfSet skSet : List (List Char)) (urls : List (List Char × List Char))
    (hm : bulletMatch line = some (pre, raw)) :
    update_line nf sk nfSet skSet urls line =
      pre ++ strip_spotify_link (strip_status_hints raw nf sk) ++
        (if strip_spotify_link (strip_status_hints raw nf sk) ∈ skSet then format_hint sk
         else if strip_spotify_link (strip_status_hints raw nf sk) ∈ nfSet then format_hint nf
         else
           match List.lookup (strip_spotify_link (strip_status_hints raw nf sk)) urls with
           | some url => (" [spotify](").toList ++ url ++ [')']
           | none => []) ∧
    ((parse_band_entry (strip_spotify_link (strip_status_hints raw nf sk))).2 = none →
      (parse_band_entry (strip_spotify_link (strip_status_hints raw nf sk))).1 =
        strip_spotify_link (strip_status_hints raw nf sk)) ∧
    (∀ n, (parse_band_entry (strip_spotify_link (strip_status_hints raw nf sk))).2 = some n →
      (parse_band_entry (strip_spotify_link (strip_status_hints raw nf sk))).1 ≠
        strip_spotify_link (strip_status_hints raw nf sk)) := by
  refine ⟨?_, fun hov => parse_band_entry_none _ hov, fun n hn hc => ?_⟩
  · unfold update_line
    rw [hm]
    by_cases h1 : strip_spotify_link (strip_status_hints raw nf sk) ∈ skSet
    · simp [h1]
    · by_cases h2 : strip_spotify_link (strip_status_hints raw nf sk) ∈ nfSet
      · simp [h1, h2]
      · cases hu : List.lookup (strip_spotify_link (strip_status_hints raw nf sk)) urls with
        | none => simp [h1, h2, hu]
        | some url => simp [h1, h2, hu]
  · have hlt := parse_band_entry_some_shorter _ n hn
    rw [hc] at hlt
    omega

/-- Witness for `c1_annotator_rewrite` at the line `- Alpha _(nf)_` with
`Alpha` in the not-found set. -/
theorem c1_annotator_rewrite_witness :
    update_line (("_(nf)_").toList) (("_(sk)_").toList) [("Alpha").toList] [] []
      (("- Alpha _(nf)_").toList) =
      ("- ").toList ++ strip_spotify_link (strip_status_hints (("Alpha _(nf)_").toList)
        (("_(nf)_").toList) (("_(sk)_").toList)) ++
        (if strip_spotify_link (strip_status_hints (("Alpha _(nf)_").toList)
            (("_(nf)_").toList) (("_(sk)_").toList)) ∈ ([] : List (List Char)) then
          format_hint (("_(sk)_").toList)
         else if strip_spotify_link (strip_status_hints (("Alpha _(nf)_").toList)
            (("_(nf)_").toList) (("_(sk)_").toList)) ∈ [("Alpha").toList] then
          format_hint (("_(nf)_").toList)
         else
           match List.lookup (strip_spotify_link (strip_status_hints (("Alpha _(nf)_").toList)
              (("_(nf)_").toList) (("_(sk)_").toList)))
              ([] : List (List Char × List Char)) with
           | some url => (" [spotify](").toList ++ url ++ [')']
           | none => []) :=
  (c1_annotator_rewrite (("- Alpha _(nf)_").toList) (("- ").toList)
    (("Alpha _(nf)_").toList) (("_(nf)_").toList) (("_(sk)_").toList)
    [("Alpha").toList] [] [] (by decide)).1

/-! ### Track aggregation and deduplication -/

/-- Models `list(dict.fromkeys(all_track_uris))` (source line 398): keep the
first occurrence of each identifier, in order.  The accumulator holds the
identifiers already seen. -/
def dedupAux (seen : List (List Char)) : List (List Char) → List (List Char)
  | [] => []
  | x :: xs => if x ∈ seen then dedupAux seen xs else x :: dedupAux (x :: seen) xs

/-- Models the aggregation-level deduplication of `main` (source line 398). -/
def dedup_track_uris (l : List (List Char)) : List (List Char) := dedupAux [] l

theorem mem_dedupAux (seen l : List (List Char)) (x : List Char) :
    x ∈ dedupAux seen l ↔ x ∈ l ∧ x ∉ seen := by
  induction l generalizing seen with
  | nil => simp [dedupAux]
  | cons a xs ih =>
    by_cases ha : a ∈ seen
    · rw [show dedupAux seen (a :: xs) = dedupAux seen xs by simp [dedupAux, ha]]
      rw [ih seen]
      simp only [List.mem_cons]
      constructor
      · rintro ⟨h1, h2⟩
        exact ⟨Or.inr h1, h2⟩
      · rintro ⟨h1, h2⟩
        rcases h1 with rfl | h1
        · exact absurd ha h2
        · exact ⟨h1, h2⟩
    · rw [show dedupAux seen (a :: xs) = a :: dedupAux (a :: seen) xs by
        simp [dedupAux, ha]]
      simp only [List.mem_cons, ih (a :: seen)]
      constructor
      · rintro (rfl | ⟨h1, h2⟩)
        · exact ⟨Or.inl rfl, ha⟩
        · exact ⟨Or.inr h1, fun hc => h2 (Or.inr hc)⟩
      · rintro ⟨h1, h2⟩
        rcases h1 with rfl | h1
        · exact Or.inl rfl
        · by_cases hx : x = a
          · exact Or.inl hx
          · exact Or.inr ⟨h1, by simp [hx, h2]⟩

theorem nodup_dedupAux (seen l : List (List Char)) : (dedupAux seen l).Nodup := by
  induction l generalizing seen with
  | nil => simp [dedupAux]
  | cons a xs ih =>
    by_cases ha : a ∈ seen
    · rw [show dedupAux seen (a :: xs) = dedupAux seen xs by simp [dedupAux, ha]]
      exact ih seen
    · rw [show dedupAux seen (a :: xs) = a :: dedupAux (a :: seen) xs by
        simp [dedupAux, ha]]
      rw [List.nodup_cons]
      refine ⟨?_, ih (a :: seen)⟩
      intro hc
      exact ((mem_dedupAux (a :: seen) xs a).mp hc).2 (List.mem_cons_self a seen)

/-- Index of the first occurrence of `x`, used to state the
first-occurrence ordering of the deduplicated aggregation. -/
def firstIdx (x : List Char) : List (List Char) → Nat
  | [] => 0
  | y :: ys => if y = x then 0 else firstIdx x ys + 1

theorem firstIdx_cons_self (x : List Char) (l : List (List Char)) :
    firstIdx x (x :: l) = 0 := by simp [firstIdx]

theorem firstIdx_cons_ne (x a : List Char) (l : List (List Char)) (h : a ≠ x) :
    firstIdx x (a :: l) = firstIdx x l + 1 := by simp [firstIdx, h]

theorem pairwise_dedupAux (seen l : List (List Char)) :
    (dedupAux seen l).Pairwise (fun x y => firstIdx x l < firstIdx y l) := by
  induction l generalizing seen with
  | nil => simp [dedupAux]
  | cons a xs ih =>
    by_cases ha : a ∈ seen
    · rw [show dedupAux seen (a :: xs) = dedupAux seen xs by simp [dedupAux, ha]]
      apply (ih seen).imp_of_mem
      intro x y hx hy hlt
      have hxa : x ≠ a := fun hc =>
        ((mem_dedupAux seen xs x).mp hx).2 (hc ▸ ha)
      have hya : y ≠ a := fun hc =>
        ((mem_dedupAux seen xs y).mp hy).2 (hc ▸ ha)
      rw [firstIdx_cons_ne x a xs (Ne.symm hxa), firstIdx_cons_ne y a xs (Ne.symm hya)]
      omega
    · rw [show dedupAux seen (a :: xs) = a :: dedupAux (a :: seen) xs by
        simp [dedupAux, ha]]
      rw [List.pairwise_cons]
      constructor
      · intro y hy
        have hya : y ≠ a := fun hc =>
          ((mem_dedupAux (a :: seen) xs y).mp hy).2 (hc ▸ List.mem_cons_self a seen)
        rw [firstIdx_cons_self, firstIdx_cons_ne y a xs (Ne.symm hya)]
        omega
      · apply (ih (a :: seen)).imp_of_mem
        intro x y hx hy hlt
        have hxa : x ≠ a := fun hc =>
          ((mem_dedupAux (a :: seen) xs x).mp hx).2 (hc ▸ List.mem_cons_self a seen)
        have hya : y ≠ a := fun hc =>
          ((mem_dedupAux (a :: seen) xs y).mp hy).2 (hc ▸ List.mem_cons_self a seen)
        rw [firstIdx_cons_ne x a xs (Ne.symm hxa), firstIdx_cons_ne y a xs (Ne.symm hya)]
        omega

/-- C6: aggregating per-artist track lists (concatenation in band-iteration
order, then per-artist rank) and deduplicating keeps no duplicate
identifier, keeps exactly the identifiers that occur, and orders the kept
identifiers by their first occurrence in the aggregation; in particular
`[a, b, a, c]` then `[b, d]` yields `[a, b, c, d]`. -/
theorem c6_dedup_keeps_first_in_order :
    (∀ trackLists : List (List (List Char)),
      (dedup_track_uris trackLists.flatten).Nodup ∧
      (∀ x, x ∈ dedup_track_uris trackLists.flatten ↔ x ∈ trackLists.flatten) ∧
      (dedup_track_uris trackLists.flatten).Pairwise
        (fun x y => firstIdx x trackLists.flatten < firstIdx y trackLists.flatten)) ∧
    dedup_track_uris
        ([[("a").toList, ("b").toList, ("a").toList, ("c").toList],
          [("b").toList, ("d").toList]] : List (List (List Char))).flatten =
      [("a").toList, ("b").toList, ("c").toList, ("d").toList] := by
  constructor
  · intro trackLists
    refine ⟨nodup_dedupAux [] _, ?_, pairwise_dedupAux [] _⟩
    intro x
    rw [show dedup_track_uris trackLists.flatten = dedupAux [] trackLists.flatten from rfl,
      mem_dedupAux]
    simp
  · decide

/-! ### Chunked playlist insertion -/

/-- Fuel-indexed chunking of a list into consecutive slices of `chunk`
elements, modelling `range(start, len(uris), chunk_size)` slicing (source
lines 288-296); the fuel (one unit per chunk, bounded by the list length
for any positive chunk size) is only a termination device. -/
def chunksF {α : Type} : Nat → Nat → List α → List (List α)
  | 0, _, _ => []
  | _ + 1, _, [] => []
  | fuel + 1, chunk, l => l.take chunk :: chunksF fuel chunk (l.drop chunk)

def chunks {α : Type} (chunk : Nat) (l : List α) : List (List α) := chunksF l.length chunk l

theorem chunksF_fuel {α : Type} (fuel : Nat) (chunk : Nat) (l : List α)
    (hc : 0 < chunk) (h : l.length ≤ fuel) :
    chunksF fuel chunk l = chunksF l.length chunk l := by
  induction fuel using Nat.strong_induction_on generalizing l with
  | _ fuel ih =>
    match fuel, l with
    | 0, l =>
      have : l = [] := List.length_eq_zero.mp (Nat.le_zero.mp h)
      subst this
      rfl
    | fuel + 1, [] => rfl
    | fuel + 1, x :: xs =>
      simp only [chunksF, List.length_cons]
      have hdrop : ((x :: xs).drop chunk).length ≤ xs.length := by
        rw [List.length_drop]
        simp only [List.length_cons]
        omega
      have hxs : xs.length ≤ fuel := by simp at h; omega
      have h1 : chunksF fuel chunk ((x :: xs).drop chunk) =
          chunksF ((x :: xs).drop chunk).length chunk ((x :: xs).drop chunk) :=
        ih fuel (Nat.lt_succ_self _) _ (le_trans hdrop hxs)
      have h2 : chunksF xs.length chunk ((x :: xs).drop chunk) =
          chunksF ((x :: xs).drop chunk).length chunk ((x :: xs).drop chunk) :=
        ih xs.length (by omega) _ hdrop
      rw [h1, h2]

theorem chunks_nil {α : Type} (chunk : Nat) : chunks chunk ([] : List α) = [] := rfl

theorem chunks_cons {α : Type} (chunk : Nat) (l : List α) (hc : 0 < chunk) (hl : l ≠ []) :
    chunks chunk l = l.take chunk :: chunks chunk (l.drop chunk) := by
  cases l with
  | nil => exact absurd rfl hl
  | cons x xs =>
    show chunksF (xs.length + 1) chunk (x :: xs) = _
    simp only [chunksF]
    rw [chunksF_fuel xs.length chunk _ hc (by
      rw [List.length_drop]
      simp only [List.length_cons]
      omega)]
    rfl

theorem join_chunks {α : Type} (chunk : Nat) (l : List α) (hc : 0 < chunk) :
    (chunks chunk l).flatten = l := by
  suffices hgen : ∀ n (l : List α), l.length ≤ n → (chunks chunk l).flatten = l from
    hgen l.length l le_rfl
  intro n
  induction n with
  | zero =>
    intro l hl
    have : l = [] := List.length_eq_zero.mp (Nat.le_zero.mp hl)
    subst this
    rfl
  | succ n ih =>
    intro l hl
    cases l with
    | nil => rfl
    | cons x xs =>
      rw [chunks_cons chunk (x :: xs) hc (List.cons_ne_nil x xs)]
      rw [List.flatten_cons]
      rw [ih ((x :: xs).drop chunk) (by
        rw [List.length_drop]
        simp at hl ⊢
        omega)]
      exact List.take_append_drop chunk (x :: xs)

theorem chunks_le {α : Type} (chunk : Nat) (l : List α) (hc : 0 < chunk) :
    ∀ c ∈ chunks chunk l, c.length ≤ chunk := by
  suffices hgen : ∀ n (l : List α), l.length ≤ n → ∀ c ∈ chunks chunk l, c.length ≤ chunk
    from hgen l.length l le_rfl
  intro n
  induction n with
  | zero =>
    intro l hl
    have : l = [] := List.length_eq_zero.mp (Nat.le_zero.mp hl)
    subst this
    simp [chunks_nil]
  | succ n ih =>
    intro l hl
    cases l with
    | nil => simp [chunks_nil]
    | cons x xs =>
      rw [chunks_cons chunk (x :: xs) hc (List.cons_ne_nil x xs)]
      intro c hcmem
      rcases List.mem_cons.mp hcmem with rfl | hmem
      · exact List.length_take_le chunk (x :: xs)
      · exact ih ((x :: xs).drop chunk) (by
          rw [List.length_drop]
          simp at hl ⊢
          omega) c hmem

/-- The playlist-mutating external calls issued by the reconciler, recorded
as a trace. -/
inductive SpCall where
  | create : SpCall
  | replaceTracks : List (List Char) → SpCall
  | addTracks : List (List Char) → SpCall
  | unfollow : List Char → SpCall
  | coverUpload : SpCall
deriving DecidableEq

/-- Models `replace_playlist_tracks` (source lines 288-291): one replace
call with the first 100 identifiers, then one add call per
`chunk_size`-slice of the rest (`range(100, len(uris), chunk_size)`). -/
def replace_playlist_tracks (uris : List (List Char)) (chunk_size : Nat) : List SpCall :=
  SpCall.replaceTracks (uris.take 100) ::
    (chunks chunk_size (uris.drop 100)).map SpCall.addTracks

/-- Models `add_tracks_in_chunks` (source lines 294-296): one add call per
`chunk_size`-slice (`range(0, len(uris), chunk_size)`). -/
def add_tracks_in_chunks (uris : List (List Char)) (chunk_size : Nat) : List SpCall :=
  (chunks chunk_size uris).map SpCall.addTracks

/-- The track identifiers carried by a call. -/
def trackPayload : SpCall → List (List Char)
  | .replaceTracks l => l
  | .addTracks l => l
  | _ => []

/-- C5: every add call of both insertion routines carries at most
`chunk_size` identifiers, the replace call carries at most 100, and the
payloads of the issued calls, concatenated in call order, equal the full
desired list. -/
theorem c5_chunked_insertion_bounds (uris : List (List Char)) (chunk_size : Nat)
    (h : 0 < chunk_size) :
    (∀ l, SpCall.addTracks l ∈ replace_playlist_tracks uris chunk_size →
      l.length ≤ chunk_size) ∧
    (∀ l, SpCall.replaceTracks l ∈ replace_playlist_tracks uris chunk_size →
      l.length ≤ 100) ∧
    ((replace_playlist_tracks uris chunk_size).map trackPayload).flatten = uris ∧
    (∀ l, SpCall.addTracks l ∈ add_tracks_in_chunks uris chunk_size →
      l.length ≤ chunk_size) ∧
    ((add_tracks_in_chunks uris chunk_size).map trackPayload).flatten = uris := by
  refine ⟨?_, ?_, ?_, ?_, ?_⟩
  · intro l hl
    rcases List.mem_cons.mp hl with hcontra | hmem
    · cases hcontra
    · rcases List.mem_map.mp hmem with ⟨c, hc, heq⟩
      have hcl : c = l := by injection heq
      subst hcl
      exact chunks_le chunk_size _ h c hc
  · intro l hl
    rcases List.mem_cons.mp hl with heq | hmem
    · cases heq
      exact List.length_take_le 100 uris
    · rcases List.mem_map.mp hmem with ⟨c, _, heq⟩
      cases heq
  · show (List.map trackPayload (SpCall.replaceTracks (uris.take 100) ::
      (chunks chunk_size (uris.drop 100)).map SpCall.addTracks)).flatten = uris
    rw [List.map_cons, List.map_map]
    rw [show trackPayload ∘ SpCall.addTracks = id from rfl, List.map_id]
    rw [List.flatten_cons]
    rw [show trackPayload (SpCall.replaceTracks (uris.take 100)) = uris.take 100 from rfl]
    rw [join_chunks chunk_size _ h]
    exact List.take_append_drop 100 uris
  · intro l hl
    rcases List.mem_map.mp hl with ⟨c, hc, heq⟩
    have hcl : c = l := by injection heq
    subst hcl
    exact chunks_le chunk_size _ h c hc
  · show ((List.map SpCall.addTracks (chunks chunk_size uris)).map trackPayload).flatten
      = uris
    rw [List.map_map, show trackPayload ∘ SpCall.addTracks = id from rfl, List.map_id]
    exact join_chunks chunk_size _ h

/-- Witness for `c5_chunked_insertion_bounds` with three identifiers and
chunk size two. -/
theorem c5_chunked_insertion_bounds_witness :
    0 < 2 ∧
    (((add_tracks_in_chunks [("a").toList, ("b").toList, ("c").toList] 2).map
      trackPayload).flatten = [("a").toList, ("b").toList, ("c").toList]) :=
  ⟨by decide,
    (c5_chunked_insertion_bounds [("a").toList, ("b").toList, ("c").toList] 2
      (by decide)).2.2.2.2⟩

/-! ### The artist resolver and the per-entry pipeline step -/

/-- A search-result artist as consumed by `pick_best_artist` and the main
loop: catalog id, display name, and profile URL (empty models a missing
`external_urls.spotify`). -/
structure SArtist where
  id : List Char
  name : List Char
  url : List Char
deriving DecidableEq

/-- Models `pick_best_artist` (source lines 180-192): empty queries and
empty result lists yield `None`; otherwise the first candidate whose
lowercased display name equals the lowercased query is returned, and
`None` when no candidate matches exactly.  The `items` argument models the
top-N list returned by the catalog search for the query. -/
def pick_best_artist (query : List Char) (items : List SArtist) : Option SArtist :=
  if query = [] then none
  else if items = [] then none
  else items.find? (fun a => a.name.map pyLower == query.map pyLower)

theorem find?_eq_some_split {α : Type} (p : α → Bool) (l : List α) (a : α)
    (h : l.find? p = some a) :
    ∃ l1 l2, l = l1 ++ a :: l2 ∧ p a = true ∧ ∀ b ∈ l1, p b = false := by
  induction l with
  | nil => simp at h
  | cons x xs ih =>
    by_cases hx : p x
    · rw [List.find?_cons_of_pos _ hx] at h
      cases h
      exact ⟨[], xs, rfl, hx, by simp⟩
    · rw [List.find?_cons_of_neg _ (by simpa using hx)] at h
      rcases ih h with ⟨l1, l2, rfl, hp, hall⟩
      refine ⟨x :: l1, l2, rfl, hp, ?_⟩
      intro b hb
      rcases List.mem_cons.mp hb with rfl | hb2
      · simpa using hx
      · exact hall b hb2

/-- C7: the resolver returns an artist only when that artist's display name
equals the query case-insensitively, and then it returns the first such
candidate of the search-result list; when no candidate matches exactly it
returns `None`. -/
theorem c7_pick_best_artist_exact_match (query : List Char) (items : List SArtist) :
    (∀ a, pick_best_artist query items = some a →
      a ∈ items ∧ a.name.map pyLower = query.map pyLower ∧
      ∃ l1 l2, items = l1 ++ a :: l2 ∧
        ∀ b ∈ l1, b.name.map pyLower ≠ query.map pyLower) ∧
    ((∀ b ∈ items, b.name.map pyLower ≠ query.map pyLower) →
      pick_best_artist query items = none) := by
  constructor
  · intro a ha
    unfold pick_best_artist at ha
    by_cases hq : query = []
    · rw [if_pos hq] at ha
      cases ha
    · rw [if_neg hq] at ha
      by_cases hi : items = []
      · rw [if_pos hi] at ha
        cases ha
      · rw [if_neg hi] at ha
        have hmem := List.mem_of_find?_eq_some ha
        have hp := List.find?_some ha
        simp only [beq_iff_eq] at hp
        rcases find?_eq_some_split _ items a ha with ⟨l1, l2, hsplit, _, hall⟩
        refine ⟨hmem, hp, l1, l2, hsplit, ?_⟩
        intro b hb
        have := hall b hb
        simpa using this
  · intro hnone
    unfold pick_best_artist
    by_cases hq : query = []
    · rw [if_pos hq]
    · rw [if_neg hq]
      by_cases hi : items = []
      · rw [if_pos hi]
      · rw [if_neg hi]
        apply List.find?_eq_none.mpr
        intro b hb
        simpa using hnone b hb

/-- Witness for `c7_pick_best_artist_exact_match`: a single candidate whose
name differs case-insensitively from the query is not returned. -/
theorem c7_pick_best_artist_exact_match_witness :
    pick_best_artist (("abba").toList)
      [(⟨("i1").toList, ("AbbaX").toList, ("u").toList⟩ : SArtist)] = none :=
  (c7_pick_best_artist_exact_match (("abba").toList)
    [(⟨("i1").toList, ("AbbaX").toList, ("u").toList⟩ : SArtist)]).2 (by decide)

/-- The non-mutating catalog calls issued while resolving one band entry. -/
inductive ResCall where
  | search : List Char → ResCall
  | topTracks : List Char → ResCall
deriving DecidableEq

/-- The per-entry classification of the main loop (source lines 369-396). -/
inductive BandOutcome where
  | skipped : BandOutcome
  | notFound : BandOutcome
  | noTracks : BandOutcome
  | matched : List (List Char) → BandOutcome
deriving DecidableEq

/-- Models `normalize_artist_query` (source lines 174-177): entries marked
intentionally skipped resolve to the empty query. -/
def normalize_artist_query (name : List Char)
    (intentionally_skipped_bands : List (List Char)) : List Char :=
  if name ∈ intentionally_skipped_bands then [] else name

/-- Models the accumulation loop of `top_tracks_for_artist` (source lines
195-204): append each track URI that is truthy and not yet present, then
stop as soon as the limit is reached. -/
def ttAux (track_limit : Nat) (uris : List (List Char)) :
    List (List Char) → List (List Char)
  | [] => uris
  | t :: ts =>
    let uris2 := if t ≠ [] ∧ t ∉ uris then uris ++ [t] else uris
    if track_limit ≤ uris2.length then uris2 else ttAux track_limit uris2 ts

/-- Models `top_tracks_for_artist` over the raw track-URI list returned by
the catalog for the artist (an empty list models a missing URI). -/
def top_tracks_for_artist (tracks : List (List Char)) (track_limit : Nat) :
    List (List Char) :=
  ttAux track_limit [] tracks

/-- Models one iteration of the resolution loop of `main` (source lines
369-396) for one band entry: the catalog calls it issues, its
classification, and the profile URL it records.  `searchResults` models
`sp.search` (the top-N items for a query) and `artistTopTracks` models
`sp.artist_top_tracks` (the raw track URIs for an artist id). -/
def processBand (searchResults : List Char → List SArtist)
    (artistTopTracks : List Char → List (List Char))
    (intentionally_skipped_bands : List (List Char))
    (track_overrides : List (List Char × Nat)) (track_limit : Nat)
    (band : List Char) : List ResCall × BandOutcome × Option (List Char) :=
  let query := normalize_artist_query band intentionally_skipped_bands
  if query = [] then ([], .skipped, none)
  else
    match pick_best_artist query (searchResults query) with
    | none => ([.search query], .notFound, none)
    | some artist =>
      let url := if artist.url ≠ [] then some artist.url else none
      let limit := match List.lookup band track_overrides with
        | some n => n
        | none => track_limit
      let tracks := top_tracks_for_artist (artistTopTracks artist.id) limit
      if tracks = [] then ([.search query, .topTracks artist.id], .noTracks, url)
      else ([.search query, .topTracks artist.id], .matched tracks, url)

/-- C8: for every band entry marked intentionally skipped in the source
document, the pipeline issues no catalog call for that entry (in
particular no search) and classifies it as intentionally skipped, as a
success rather than a failure. -/
theorem c8_skipped_entries_no_search (docLines : List (List Char)) (nf sk : List Char)
    (searchResults : List Char → List SArtist)
    (artistTopTracks : List Char → List (List Char))
    (track_overrides : List (List Char × Nat)) (track_limit : Nat) (band : List Char)
    (h : band ∈ (load_bands docLines nf sk).2.1) :
    processBand searchResults artistTopTracks ((load_bands docLines nf sk).2.1)
      track_overrides track_limit band = ([], .skipped, none) := by
  simp [processBand, normalize_artist_query, h]

/-- Witness for `c8_skipped_entries_no_search`: the document line
`- Gamma _(not added: intentionally skipped)_` marks `Gamma` skipped, and
the resolver step for `Gamma` issues no call. -/
theorem c8_skipped_entries_no_search_witness :
    processBand (fun _ => []) (fun _ => [])
      ((load_bands [(("- Gamma _(not added: intentionally skipped)_").toList)]
        (("_(not added: no exact Spotify artist match)_").toList)
        (("_(not added: intentionally skipped)_").toList)).2.1)
      [] 5 (("Gamma").toList) = ([], .skipped, none) :=
  c8_skipped_entries_no_search
    [(("- Gamma _(not added: intentionally skipped)_").toList)]
    (("_(not added: no exact Spotify artist match)_").toList)
    (("_(not added: intentionally skipped)_").toList)
    (fun _ => []) (fun _ => []) [] 5 (("Gamma").toList) (by decide)

/-! ### The playlist reconciler

The external service is modelled by its observable data: the authenticated
user's playlist collection is a fixed list served in pages of 50 by
`current_user_playlists`, the tracks of a playlist are given by an oracle
function, and every mutating call is recorded in a trace.  The collection
is kept static across the run — conservatively, deleted playlists may
still be served by later page requests, which is exactly the situation the
deletion routine's seen-set guards against. -/

/-- A playlist as served by the user's playlist listing: id, name and owner
id (empty lists model missing fields). -/
structure SPlaylist where
  id : List Char
  name : List Char
  owner : List Char
deriving DecidableEq

/-- Fuel-indexed pagination loop of `find_existing_playlist` (source lines
254-270): page through the collection 50 at a time, return the first
playlist owned by the user whose normalized name equals the normalized
target; stop on an empty or short page.  The fuel is only a termination
device; `find_existing_playlist` supplies enough of it. -/
def find_existing_playlistF : Nat → List SPlaylist → List Char → List Char → Nat →
    Option SPlaylist
  | 0, _, _, _, _ => none
  | fuel + 1, ps, user_id, ntarget, offset =>
    let items := (ps.drop offset).take 50
    if items = [] then none
    else
      match items.find? (fun p =>
          p.owner == user_id && normalize_playlist_name p.name == ntarget) with
      | some p => some p
      | none =>
        if items.length < 50 then none
        else find_existing_playlistF fuel ps user_id ntarget (offset + 50)

/-- Models `find_existing_playlist` (source lines 254-270). -/
def find_existing_playlist (ps : List SPlaylist) (user_id name : List Char) :
    Option SPlaylist :=
  find_existing_playlistF (ps.length + 1) ps user_id (normalize_playlist_name name) 0

/-- The running state of `delete_existing_playlists`: the unfollowed ids,
the deletion counter, the per-pass found flag, and the recorded trace. -/
structure DelSt where
  seen : List (List Char)
  deleted : Nat
  foundInPass : Bool
  calls : List SpCall
deriving DecidableEq

/-- One playlist of a page, as handled by the guarded unfollow of
`delete_existing_playlists` (source lines 227-242): unfollow only
playlists with a truthy id, matching normalized name, owned by the user,
and not unfollowed before. -/
def delStep (user_id ntarget : List Char) (st : DelSt) (p : SPlaylist) : DelSt :=
  if p.id ≠ [] ∧ normalize_playlist_name p.name = ntarget ∧ p.owner = user_id ∧
      p.id ∉ st.seen then
    { seen := st.seen ++ [p.id], deleted := st.deleted + 1, foundInPass := true,
      calls := st.calls ++ [SpCall.unfollow p.id] }
  else st

/-- One page of the inner scan. -/
def delPage (user_id ntarget : List Char) (items : List SPlaylist) (st : DelSt) : DelSt :=
  items.foldl (delStep user_id ntarget) st

/-- Fuel-indexed inner pagination loop of `delete_existing_playlists`
(source lines 221-246): process pages of 50 until an empty or short page. -/
def delScanF : Nat → List SPlaylist → List Char → List Char → Nat → DelSt → DelSt
  | 0, _, _, _, _, st => st
  | fuel + 1, ps, user_id, ntarget, offset, st =>
    if (ps.drop offset).take 50 = [] then st
    else if ((ps.drop offset).take 50).length < 50 then
      delPage user_id ntarget ((ps.drop offset).take 50) st
    else
      delScanF fuel ps user_id ntarget (offset + 50)
        (delPage user_id ntarget ((ps.drop offset).take 50) st)

/-- Fuel-indexed outer rescan loop of `delete_existing_playlists` (source
lines 217-249): repeat full scans until a pass finds no new match;
`none` reports fuel exhaustion, shown unreachable for the supplied fuel. -/
def delOuterF : Nat → List SPlaylist → List Char → List Char → DelSt → Option DelSt
  | 0, _, _, _, _ => none
  | fuel + 1, ps, user_id, ntarget, st =>
    if (delScanF (ps.length + 1) ps user_id ntarget 0
        { st with foundInPass := false }).foundInPass then
      delOuterF fuel ps user_id ntarget
        (delScanF (ps.length + 1) ps user_id ntarget 0 { st with foundInPass := false })
    else some (delScanF (ps.length + 1) ps user_id ntarget 0 { st with foundInPass := false })

/-- Models `delete_existing_playlists` (source lines 212-251). -/
def delete_existing_playlists (ps : List SPlaylist) (user_id name : List Char) :
    Option DelSt :=
  delOuterF (ps.length + 2) ps user_id (normalize_playlist_name name)
    ⟨[], 0, false, []⟩

/-- Models Python `set(a) == set(b)` on URI lists (source line 434). -/
def set_eq_uris (a b : List (List Char)) : Bool :=
  a.all (fun x => b.contains x) && b.all (fun x => a.contains x)

/-- Models the reconciliation phase of `main` after aggregation (source
lines 403-481): the dry-run early return, the fatal empty-set abort
(line 424-425, after the document's hints were rewritten — a document
write, not a playlist call), the unchanged/update split for an existing
playlist, the force-recreate deletion, and the create-and-add path.
Returns the trace of playlist-mutating calls and the fatal error message,
if any.  `playlistTracks` models `get_playlist_track_uris` (exhaustive
pagination of a playlist's track URIs). -/
def reconcile (dry_run force_recreate has_cover : Bool) (chunk_size : Nat)
    (deduped_track_uris : List (List Char)) (ps : List SPlaylist)
    (user_id playlist_name : List Char)
    (playlistTracks : List Char → List (List Char)) : List SpCall × Option (List Char) :=
  if dry_run then ([], none)
  else if deduped_track_uris = [] then
    ([], some (("No tracks found. Playlist was not created.").toList))
  else
    match find_existing_playlist ps user_id playlist_name with
    | some existing =>
      if !force_recreate then
        if set_eq_uris (playlistTracks existing.id) deduped_track_uris then
          ((if has_cover then [SpCall.coverUpload] else []), none)
        else
          (replace_playlist_tracks deduped_track_uris chunk_size ++
            (if has_cover then [SpCall.coverUpload] else []), none)
      else
        match delete_existing_playlists ps user_id playlist_name with
        | some st =>
          (st.calls ++ [SpCall.create] ++
            add_tracks_in_chunks deduped_track_uris chunk_size ++
            (if has_cover then [SpCall.coverUpload] else []), none)
        | none => ([], some (("deletion scan fuel exhausted").toList))
    | none =>
      ([SpCall.create] ++ add_tracks_in_chunks deduped_track_uris chunk_size ++
        (if has_cover then [SpCall.coverUpload] else []), none)

/-- C2: in a run that is not a dry run, an empty deduplicated desired set
makes the pipeline abort with the fatal error and the trace of
playlist-mutating calls is empty — no create, replace, add or unfollow is
ever issued. -/
theorem c2_empty_desired_set_aborts (force_recreate has_cover : Bool) (chunk_size : Nat)
    (ps : List SPlaylist) (user_id playlist_name : List Char)
    (playlistTracks : List Char → List (List Char)) :
    reconcile false force_recreate has_cover chunk_size [] ps user_id playlist_name
      playlistTracks =
      ([], some (("No tracks found. Playlist was not created.").toList)) := by
  simp [reconcile]

/-- C3: when an existing playlist is found, force-recreate is off and the
existing track identifiers equal the desired ones as sets (order
disregarded), the run is classified unchanged: no fatal error, and the
trace contains no replace call and no add call (at most the best-effort
cover upload). -/
theorem c3_set_equal_playlist_unchanged (has_cover : Bool) (chunk_size : Nat)
    (deduped_track_uris : List (List Char)) (ps : List SPlaylist)
    (user_id playlist_name : List Char)
    (playlistTracks : List Char → List (List Char)) (existing : SPlaylist)
    (hfind : find_existing_playlist ps user_id playlist_name = some existing)
    (hset : set_eq_uris (playlistTracks existing.id) deduped_track_uris = true)
    (hne : deduped_track_uris ≠ []) :
    reconcile false false has_cover chunk_size deduped_track_uris ps user_id
      playlist_name playlistTracks =
      ((if has_cover then [SpCall.coverUpload] else []), none) ∧
    ∀ l, SpCall.replaceTracks l ∉ (reconcile false false has_cover chunk_size
        deduped_track_uris ps user_id playlist_name playlistTracks).1 ∧
      SpCall.addTracks l ∉ (reconcile false false has_cover chunk_size
        deduped_track_uris ps user_id playlist_name playlistTracks).1 := by
  have heq : reconcile false false has_cover chunk_size deduped_track_uris ps user_id
      playlist_name playlistTracks =
      ((if has_cover then [SpCall.coverUpload] else []), none) := by
    simp [reconcile, hne, hfind, hset]
  refine ⟨heq, ?_⟩
  intro l
  rw [heq]
  cases has_cover <;> simp

/-- Witness for `c3_set_equal_playlist_unchanged`: existing tracks
`[x, y]`, desired `[y, x]`. -/
theorem c3_set_equal_playlist_unchanged_witness :
    reconcile false false true 100 [("y").toList, ("x").toList]
      [(⟨("p1").toList, ("My Playlist").toList, ("u1").toList⟩ : SPlaylist)]
      (("u1").toList) (("My Playlist").toList)
      (fun _ => [("x").toList, ("y").toList]) =
      ([SpCall.coverUpload], none) :=
  (c3_set_equal_playlist_unchanged true 100 [("y").toList, ("x").toList]
    [(⟨("p1").toList, ("My Playlist").toList, ("u1").toList⟩ : SPlaylist)]
    (("u1").toList) (("My Playlist").toList)
    (fun _ => [("x").toList, ("y").toList])
    (⟨("p1").toList, ("My Playlist").toList, ("u1").toList⟩ : SPlaylist)
    (by decide) (by decide) (by decide)).1

/-! ### Invariants of the deletion loop -/

/-- A playlist the deletion routine is meant to unfollow: truthy id,
matching normalized name, owned by the authenticated user. -/
def delMatch (user_id ntarget : List Char) (p : SPlaylist) : Prop :=
  p.id ≠ [] ∧ normalize_playlist_name p.name = ntarget ∧ p.owner = user_id

/-- Invariant of the deletion state: the trace holds exactly one unfollow
per seen id and none for other ids, and every seen id comes from a
matching playlist of the collection. -/
def DelInv (ps : List SPlaylist) (user_id ntarget : List Char) (st : DelSt) : Prop :=
  (∀ i, st.calls.count (SpCall.unfollow i) = (if i ∈ st.seen then 1 else 0)) ∧
  (∀ i ∈ st.seen, ∃ p ∈ ps, p.id = i ∧ delMatch user_id ntarget p)

theorem count_unfollow_singleton (i pid : List Char) :
    List.count (SpCall.unfollow i) [SpCall.unfollow pid] = if pid = i then 1 else 0 := by
  by_cases h : pid = i
  · subst h
    simp
  · simp [List.count_cons, h]

theorem delStep_seen_mono (user_id ntarget : List Char) (st : DelSt) (p : SPlaylist) :
    st.seen ⊆ (delStep user_id ntarget st p).seen := by
  unfold delStep
  split_ifs
  · exact List.subset_append_left _ _
  · exact fun _ h => h

theorem delStep_inv (ps : List SPlaylist) (user_id ntarget : List Char) (st : DelSt)
    (p : SPlaylist) (hp : p ∈ ps) (h : DelInv ps user_id ntarget st) :
    DelInv ps user_id ntarget (delStep user_id ntarget st p) := by
  unfold delStep
  split_ifs with hc
  · constructor
    · intro i
      simp only [List.count_append, h.1 i, count_unfollow_singleton]
      by_cases hi : p.id = i
      · subst hi
        rw [if_neg hc.2.2.2, if_pos rfl, if_pos (by simp)]
      · by_cases hmem : i ∈ st.seen
        · rw [if_pos hmem, if_neg hi, if_pos (by simp [hmem])]
        · rw [if_neg hmem, if_neg hi, if_neg (by
            intro hcontra
            rcases List.mem_append.mp hcontra with h1 | h1
            · exact hmem h1
            · exact hi (List.mem_singleton.mp h1).symm)]
    · intro i hi
      simp only [List.mem_append, List.mem_singleton] at hi
      rcases hi with hi | rfl
      · exact h.2 i hi
      · exact ⟨p, hp, rfl, hc.1, hc.2.1, hc.2.2.1⟩
  · exact h

theorem delStep_noop (user_id ntarget : List Char) (st : DelSt) (p : SPlaylist)
    (h : delMatch user_id ntarget p → p.id ∈ st.seen) :
    delStep user_id ntarget st p = st := by
  unfold delStep
  split_ifs with hc
  · exact absurd (h ⟨hc.1, hc.2.1, hc.2.2.1⟩) hc.2.2.2
  · rfl

theorem delPage_seen_mono (user_id ntarget : List Char) (items : List SPlaylist)
    (st : DelSt) : st.seen ⊆ (delPage user_id ntarget items st).seen := by
  induction items generalizing st with
  | nil => exact fun _ h => h
  | cons q rest ih =>
    exact fun x hx =>
      ih (delStep user_id ntarget st q) (delStep_seen_mono user_id ntarget st q hx)

theorem delPage_inv (ps : List SPlaylist) (user_id ntarget : List Char)
    (items : List SPlaylist) (st : DelSt) (hsub : ∀ p ∈ items, p ∈ ps)
    (h : DelInv ps user_id ntarget st) :
    DelInv ps user_id ntarget (delPage user_id ntarget items st) := by
  induction items generalizing st with
  | nil => exact h
  | cons q rest ih =>
    exact ih (delStep user_id ntarget st q)
      (fun p hp => hsub p (List.mem_cons_of_mem q hp))
      (delStep_inv ps user_id ntarget st q (hsub q (List.mem_cons_self q rest)) h)

theorem delPage_covers (user_id ntarget : List Char) (items : List SPlaylist)
    (st : DelSt) (p : SPlaylist) (hp : p ∈ items) (hm : delMatch user_id ntarget p) :
    p.id ∈ (delPage user_id ntarget items st).seen := by
  induction items generalizing st with
  | nil => simp at hp
  | cons q rest ih =>
    rcases List.mem_cons.mp hp with rfl | hp2
    · show p.id ∈ (delPage user_id ntarget rest (delStep user_id ntarget st p)).seen
      apply delPage_seen_mono
      unfold delStep
      split_ifs with hc
      · simp
      · push_neg at hc
        exact hc hm.1 hm.2.1 hm.2.2
    · show p.id ∈ (delPage user_id ntarget rest (delStep user_id ntarget st q)).seen
      exact ih (delStep user_id ntarget st q) hp2

theorem delPage_noop (user_id ntarget : List Char) (items : List SPlaylist) (st : DelSt)
    (h : ∀ p ∈ items, delMatch user_id ntarget p → p.id ∈ st.seen) :
    delPage user_id ntarget items st = st := by
  induction items with
  | nil => rfl
  | cons q rest ih =>
    show delPage user_id ntarget rest (delStep user_id ntarget st q) = st
    rw [delStep_noop user_id ntarget st q (h q (List.mem_cons_self q rest))]
    exact ih (fun p hp => h p (List.mem_cons_of_mem q hp))

theorem take_subset_of_drop (ps : List SPlaylist) (offset n : Nat) :
    ∀ p ∈ (ps.drop offset).take n, p ∈ ps := fun _p hp =>
  (List.drop_subset offset ps) ((List.take_subset n (ps.drop offset)) hp)

theorem delScanF_seen_mono (fuel : Nat) (ps : List SPlaylist) (user_id ntarget : List Char)
    (offset : Nat) (st : DelSt) :
    st.seen ⊆ (delScanF fuel ps user_id ntarget offset st).seen := by
  induction fuel generalizing offset st with
  | zero => exact fun _ h => h
  | succ fuel ih =>
    simp only [delScanF]
    split_ifs
    · exact fun _ h => h
    · exact delPage_seen_mono user_id ntarget _ st
    · exact fun x hx =>
        ih (offset + 50) _ (delPage_seen_mono user_id ntarget _ st hx)

theorem delScanF_inv (fuel : Nat) (ps : List SPlaylist) (user_id ntarget : List Char)
    (offset : Nat) (st : DelSt) (h : DelInv ps user_id ntarget st) :
    DelInv ps user_id ntarget (delScanF fuel ps user_id ntarget offset st) := by
  induction fuel generalizing offset st with
  | zero => exact h
  | succ fuel ih =>
    simp only [delScanF]
    split_ifs
    · exact h
    · exact delPage_inv ps user_id ntarget _ st (take_subset_of_drop ps offset 50) h
    · exact ih (offset + 50) _
        (delPage_inv ps user_id ntarget _ st (take_subset_of_drop ps offset 50) h)

theorem delScanF_covers (fuel : Nat) (ps : List SPlaylist) (user_id ntarget : List Char)
    (offset : Nat) (st : DelSt) (hfuel : ps.length ≤ offset + 50 * fuel) :
    ∀ p ∈ ps.drop offset, delMatch user_id ntarget p →
      p.id ∈ (delScanF fuel ps user_id ntarget offset st).seen := by
  induction fuel generalizing offset st with
  | zero =>
    intro p hp _
    have : ps.drop offset = [] := List.drop_eq_nil_of_le (by omega)
    rw [this] at hp
    simp at hp
  | succ fuel ih =>
    intro p hp hm
    simp only [delScanF]
    split_ifs with h1 h2
    · rw [List.take_eq_nil_iff] at h1
      rcases h1 with h1 | h1
      · cases h1
      · rw [h1] at hp
        simp at hp
    · have hshort : (ps.drop offset).length < 50 := by
        rcases lt_or_ge (ps.drop offset).length 50 with h | h
        · exact h
        · rw [List.length_take, min_eq_left h] at h2
          omega
      have : (ps.drop offset).take 50 = ps.drop offset :=
        List.take_of_length_le (by omega)
      rw [this]
      exact delPage_covers user_id ntarget _ st p hp hm
    · have hsplit : ps.drop offset = (ps.drop offset).take 50 ++ ps.drop (offset + 50) := by
        conv_lhs => rw [← List.take_append_drop 50 (ps.drop offset)]
        rw [List.drop_drop]
      rw [hsplit] at hp
      rcases List.mem_append.mp hp with hin | hout
      · exact delScanF_seen_mono fuel ps user_id ntarget (offset + 50) _
          (delPage_covers user_id ntarget _ st p hin hm)
      · exact ih (offset + 50) _ (by omega) p hout hm

theorem delScanF_noop (fuel : Nat) (ps : List SPlaylist) (user_id ntarget : List Char)
    (offset : Nat) (st : DelSt)
    (h : ∀ p ∈ ps, delMatch user_id ntarget p → p.id ∈ st.seen) :
    delScanF fuel ps user_id ntarget offset st = st := by
  induction fuel generalizing offset with
  | zero => rfl
  | succ fuel ih =>
    simp only [delScanF]
    have hnoop : delPage user_id ntarget ((ps.drop offset).take 50) st = st :=
      delPage_noop user_id ntarget _ st
        (fun p hp => h p (take_subset_of_drop ps offset 50 p hp))
    split_ifs
    · rfl
    · exact hnoop
    · rw [hnoop]
      exact ih (offset + 50)

theorem delOuterF_succ (fuel : Nat) (ps : List SPlaylist) (user_id ntarget : List Char)
    (st : DelSt) :
    delOuterF (fuel + 1) ps user_id ntarget st =
      if (delScanF (ps.length + 1) ps user_id ntarget 0
          { st with foundInPass := false }).foundInPass then
        delOuterF fuel ps user_id ntarget
          (delScanF (ps.length + 1) ps user_id ntarget 0 { st with foundInPass := false })
      else some (delScanF (ps.length + 1) ps user_id ntarget 0
        { st with foundInPass := false }) := rfl

/-- Full specification of the deletion routine in the static-collection
model: it terminates with a state whose trace unfollows exactly the
matching playlists, each exactly once. -/
theorem delete_existing_spec (ps : List SPlaylist) (user_id name : List Char) :
    ∃ st, delete_existing_playlists ps user_id name = some st ∧
      DelInv ps user_id (normalize_playlist_name name) st ∧
      ∀ p ∈ ps, delMatch user_id (normalize_playlist_name name) p → p.id ∈ st.seen := by
  have hinv0 : DelInv ps user_id (normalize_playlist_name name) ⟨[], 0, false, []⟩ := by
    constructor
    · intro i
      simp
    · intro i hi
      simp at hi
  have hinv1 : DelInv ps user_id (normalize_playlist_name name)
      (delScanF (ps.length + 1) ps user_id (normalize_playlist_name name) 0
        ⟨[], 0, false, []⟩) :=
    delScanF_inv _ ps user_id _ 0 _ hinv0
  have hcov1 : ∀ p ∈ ps, delMatch user_id (normalize_playlist_name name) p →
      p.id ∈ (delScanF (ps.length + 1) ps user_id (normalize_playlist_name name) 0
        ⟨[], 0, false, []⟩).seen := by
    intro p hp hm
    exact delScanF_covers (ps.length + 1) ps user_id _ 0 _ (by omega) p
      (by simpa using hp) hm
  show ∃ st, delOuterF (ps.length + 2) ps user_id (normalize_playlist_name name)
    ⟨[], 0, false, []⟩ = some st ∧ _
  rw [show ps.length + 2 = (ps.length + 1) + 1 from rfl, delOuterF_succ]
  by_cases hf : (delScanF (ps.length + 1) ps user_id (normalize_playlist_name name) 0
      ⟨[], 0, false, []⟩).foundInPass
  · rw [if_pos hf]
    rw [show ps.length + 1 = ps.length + 1 from rfl, delOuterF_succ]
    have hnoop : delScanF (ps.length + 1) ps user_id (normalize_playlist_name name) 0
        { (delScanF (ps.length + 1) ps user_id (normalize_playlist_name name) 0
            ⟨[], 0, false, []⟩) with foundInPass := false } =
        { (delScanF (ps.length + 1) ps user_id (normalize_playlist_name name) 0
            ⟨[], 0, false, []⟩) with foundInPass := false } :=
      delScanF_noop _ ps user_id _ 0 _ (fun p hp hm => hcov1 p hp hm)
    rw [hnoop, if_neg (by simp)]
    refine ⟨_, rfl, ⟨fun i => hinv1.1 i, fun i hi => hinv1.2 i hi⟩,
      fun p hp hm => hcov1 p hp hm⟩
  · rw [if_neg hf]
    exact ⟨_, rfl, hinv1, hcov1⟩

/-- C4: for every finite playlist collection the deletion routine's rescan
loop terminates, it unfollows every playlist owned by the user whose
normalized name equals the normalized target — duplicates included — each
exactly once, and in a force-recreate run all those unfollow calls precede
the create call and the subsequent chunked adds. -/
theorem c4_force_recreate_deletes_each_once (ps : List SPlaylist)
    (user_id name : List Char) :
    ∃ st, delete_existing_playlists ps user_id name = some st ∧
      (∀ p ∈ ps, p.id ≠ [] → normalize_playlist_name p.name = normalize_playlist_name name →
        p.owner = user_id → st.calls.count (SpCall.unfollow p.id) = 1) ∧
      (∀ (has_cover : Bool) (chunk_size : Nat) (deduped : List (List Char))
          (playlistTracks : List Char → List (List Char)) (existing : SPlaylist),
        deduped ≠ [] →
        find_existing_playlist ps user_id name = some existing →
        reconcile false true has_cover chunk_size deduped ps user_id name playlistTracks =
          (st.calls ++ [SpCall.create] ++ add_tracks_in_chunks deduped chunk_size ++
            (if has_cover then [SpCall.coverUpload] else []), none)) := by
  obtain ⟨st, hdel, hinv, hcov⟩ := delete_existing_spec ps user_id name
  refine ⟨st, hdel, ?_, ?_⟩
  · intro p hp h1 h2 h3
    rw [hinv.1 p.id, if_pos (hcov p hp ⟨h1, h2, h3⟩)]
  · intro has_cover chunk_size deduped playlistTracks existing hne hfind
    simp [reconcile, hne, hfind, hdel]

/-- Witness for `c4_force_recreate_deletes_each_once` on a collection with
two same-named duplicate playlists. -/
theorem c4_force_recreate_deletes_each_once_witness :
    ∃ st, delete_existing_playlists
        [(⟨("p1").toList, ("Foo").toList, ("u").toList⟩ : SPlaylist),
         (⟨("p2").toList, ("Foo").toList, ("u").toList⟩ : SPlaylist)]
        (("u").toList) (("Foo").toList) = some st ∧
      (∀ p ∈ [(⟨("p1").toList, ("Foo").toList, ("u").toList⟩ : SPlaylist),
         (⟨("p2").toList, ("Foo").toList, ("u").toList⟩ : SPlaylist)],
        p.id ≠ [] →
        normalize_playlist_name p.name = normalize_playlist_name (("Foo").toList) →
        p.owner = (("u").toList) → st.calls.count (SpCall.unfollow p.id) = 1) ∧
      (∀ (has_cover : Bool) (chunk_size : Nat) (deduped : List (List Char))
          (playlistTracks : List Char → List (List Char)) (existing : SPlaylist),
        deduped ≠ [] →
        find_existing_playlist
          [(⟨("p1").toList, ("Foo").toList, ("u").toList⟩ : SPlaylist),
           (⟨("p2").toList, ("Foo").toList, ("u").toList⟩ : SPlaylist)]
          (("u").toList) (("Foo").toList) = some existing →
        reconcile false true has_cover chunk_size deduped
          [(⟨("p1").toList, ("Foo").toList, ("u").toList⟩ : SPlaylist),
           (⟨("p2").toList, ("Foo").toList, ("u").toList⟩ : SPlaylist)]
          (("u").toList) (("Foo").toList) playlistTracks =
          (st.calls ++ [SpCall.create] ++ add_tracks_in_chunks deduped chunk_size ++
            (if has_cover then [SpCall.coverUpload] else []), none)) :=
  c4_force_recreate_deletes_each_once
    [(⟨("p1").toList, ("Foo").toList, ("u").toList⟩ : SPlaylist),
     (⟨("p2").toList, ("Foo").toList, ("u").toList⟩ : SPlaylist)]
    (("u").toList) (("Foo").toList)

/-- C10: the deletion routine never issues an unfollow call for a playlist
that is not owned by the authenticated user or whose normalized name
differs from the normalized target (or whose id is missing), and it never
issues two unfollow calls for the same playlist id. -/
theorem c10_unfollow_only_matching_never_twice (ps : List SPlaylist)
    (user_id name : List Char) (st : DelSt)
    (h : delete_existing_playlists ps user_id name = some st) :
    (∀ i, SpCall.unfollow i ∈ st.calls →
      ∃ p ∈ ps, p.id = i ∧ p.id ≠ [] ∧
        normalize_playlist_name p.name = normalize_playlist_name name ∧
        p.owner = user_id) ∧
    (∀ i, st.calls.count (SpCall.unfollow i) ≤ 1) := by
  obtain ⟨st2, hdel, hinv, _⟩ := delete_existing_spec ps user_id name
  rw [hdel] at h
  injection h with h
  subst h
  constructor
  · intro i hi
    by_cases hseen : i ∈ st2.seen
    · obtain ⟨p, hp, hpi, hm⟩ := hinv.2 i hseen
      exact ⟨p, hp, hpi, hm.1, hm.2.1, hm.2.2⟩
    · have := hinv.1 i
      rw [if_neg hseen] at this
      exact absurd hi (List.count_eq_zero.mp this)
  · intro i
    rw [hinv.1 i]
    split_ifs <;> omega

/-- Witness for `c10_unfollow_only_matching_never_twice`: a collection with
two matching playlists (`Foo` and its case variant `foo`), one with a
different name and one owned by another user; exactly the two matching
ones are unfollowed, once each. -/
theorem c10_unfollow_only_matching_never_twice_witness :
    (∀ i, SpCall.unfollow i ∈
        (⟨[("p1").toList, ("p2").toList], 2, false,
          [SpCall.unfollow (("p1").toList), SpCall.unfollow (("p2").toList)]⟩ : DelSt).calls →
      ∃ p ∈ [(⟨("p1").toList, ("Foo").toList, ("u").toList⟩ : SPlaylist),
         (⟨("p2").toList, ("foo").toList, ("u").toList⟩ : SPlaylist),
         (⟨("p3").toList, ("Bar").toList, ("u").toList⟩ : SPlaylist),
         (⟨("p4").toList, ("Foo").toList, ("other").toList⟩ : SPlaylist)], p.id = i ∧
        p.id ≠ [] ∧
        normalize_playlist_name p.name = normalize_playlist_name (("Foo").toList) ∧
        p.owner = (("u").toList)) ∧
    (∀ i, (⟨[("p1").toList, ("p2").toList], 2, false,
        [SpCall.unfollow (("p1").toList), SpCall.unfollow (("p2").toList)]⟩ : DelSt).calls.count
        (SpCall.unfollow i) ≤ 1) :=
  c10_unfollow_only_matching_never_twice
    [(⟨("p1").toList, ("Foo").toList, ("u").toList⟩ : SPlaylist),
     (⟨("p2").toList, ("foo").toList, ("u").toList⟩ : SPlaylist),
     (⟨("p3").toList, ("Bar").toList, ("u").toList⟩ : SPlaylist),
     (⟨("p4").toList, ("Foo").toList, ("other").toList⟩ : SPlaylist)]
    (("u").toList) (("Foo").toList)
    (⟨[("p1").toList, ("p2").toList], 2, false,
      [SpCall.unfollow (("p1").toList), SpCall.unfollow (("p2").toList)]⟩ : DelSt)
    (by decide)

end Lineup2Spotify
